import Mathlib

/-!
Verification development for the `vscode-favor` favorites extension
(`src/unnamed/part_002` is the latest evolution of the provider and the
authority for the data model; `src/extension.ts` / `src/extension.js` are
earlier evolutions of the same class).

The `FavoritesProvider` state is embedded shallowly.  JavaScript `Map`
objects keyed by strings become association lists (`mapGet` / `mapSet` /
`mapDelete` mirror `Map.get` / `Map.set` / `Map.delete`; key order is
insertion order, and the provider never creates duplicate keys).

Reference semantics matter for this program: `saveToHistory` stores
`new Map(this.groups)` — a shallow copy that shares the `GroupData`
objects with the live map — and later in-place mutations of a shared
`GroupData` are visible through old snapshots.  To capture this, group
objects live in an explicit heap (`List GroupObj`, a reference is an
index), and both the live `groups` map and history snapshots map names
to references.
-/

namespace Favor

/-- Entries of a string-keyed JavaScript `Map`, looked up front to back
(`Map.get`). -/
def mapGet {α : Type} : List (String × α) → String → Option α
  | [], _ => none
  | p :: rest, k => if p.1 = k then some p.2 else mapGet rest k

/-- Mirror of `Map.set`: replace the entry in place if the key is
present, otherwise append at the end (insertion order). -/
def mapSet {α : Type} : List (String × α) → String → α → List (String × α)
  | [], k, v => [(k, v)]
  | p :: rest, k, v => if p.1 = k then (k, v) :: rest else p :: mapSet rest k v

/-- Mirror of `Map.delete`: remove the entry with the given key. -/
def mapDelete {α : Type} : List (String × α) → String → List (String × α)
  | [], _ => []
  | p :: rest, k => if p.1 = k then rest else p :: mapDelete rest k

/-- Mirror of `Map.has`. -/
def mapHas {α : Type} (m : List (String × α)) (k : String) : Bool :=
  (mapGet m k).isSome

/-- Keys of a map, in insertion order. -/
def keysOf {α : Type} (m : List (String × α)) : List String :=
  m.map (·.1)

/-- Key set of a `Map<string, boolean>` used as a set (`subGroups`):
`set k true` appends the key if missing. -/
def subAdd (l : List String) (k : String) : List String :=
  if k ∈ l then l else l ++ [k]

/-- Deleting a key from a `Map<string, boolean>` used as a set. -/
def subDel : List String → String → List String
  | [], _ => []
  | x :: rest, k => if x = k then rest else x :: subDel rest k

/-- Mirror of `interface FavoriteItem` (the fields the data model uses:
`path`, `name`, and the optional denormalized `groupName`; the
UI-only `isGroup`/`contextValue` fields are not part of store state). -/
structure FavoriteItem where
  path : String
  name : String
  groupName : Option String
  deriving Repr, DecidableEq

/-- Mirror of `interface GroupData`: `files : Map<string, FavoriteItem>`,
`subGroups : Map<string, boolean>` (key set), `parentGroup`. -/
structure GroupObj where
  files : List (String × FavoriteItem)
  subGroups : List String
  parentGroup : Option String
  deriving Repr, DecidableEq

/-- References into the heap of `GroupData` objects (a heap is a
`List GroupObj` and a reference is an index into it). -/
abbrev Ref := Nat

/-- Mirror of `interface HistorySnapshot`.  The `groups` field of a
snapshot is `new Map(this.groups)`: a copy of the name-to-reference
map that still shares the `GroupData` objects.  The `favorites` field
(`this.groups.get('default')?.files || new Map()`) is read in `undo`
only by a statement whose effect is immediately discarded (see `undo`),
and the `data`/`timestamp` fields are diagnostic only; none of the
three affects any observable state, so they are not modelled. -/
structure HistorySnapshot where
  type : String
  groupsCopy : List (String × Ref)
  activeGroup : Option String
  deriving Repr, DecidableEq

/-- The mutable state of `FavoritesProvider`: the heap of `GroupData`
objects, the `groups` map (name to reference), `activeGroup`, and the
undo `history`. -/
structure ProviderState where
  heap : List GroupObj
  groups : List (String × Ref)
  activeGroup : Option String
  history : List HistorySnapshot
  deriving Repr, DecidableEq

/-- Heap read (a valid reference always hits; `none` only on references
that no live map can hold). -/
def heapGet (h : List GroupObj) (r : Ref) : Option GroupObj :=
  h[r]?

/-- In-place mutation of the object behind a reference. -/
def heapSet (h : List GroupObj) (r : Ref) (g : GroupObj) : List GroupObj :=
  h.set r g

/-- Allocation of a fresh `GroupData` object: the new reference is the
old heap length. -/
def alloc (s : ProviderState) (g : GroupObj) : ProviderState × Ref :=
  ({ s with heap := s.heap ++ [g] }, s.heap.length)

/-- Fresh, empty, top-level `GroupData`, as the literal
`{ files: new Map(), subGroups: new Map(), parentGroup: null }`. -/
def emptyGroup : GroupObj :=
  { files := [], subGroups := [], parentGroup := none }

/-- Splitting a character list at every occurrence of `c` (the
character-level core of `String.prototype.split`). -/
def splitOnChar (c : Char) : List Char → List (List Char)
  | [] => [[]]
  | x :: rest =>
      let r := splitOnChar c rest
      if x = c then [] :: r
      else
        match r with
        | [] => [[x]]
        | h :: t => (x :: h) :: t

/-- Mirror of `String.prototype.trim`: strip whitespace from both
ends. -/
def trimStr (s : String) : String :=
  String.mk
    (((s.data.dropWhile Char.isWhitespace).reverse.dropWhile
        Char.isWhitespace).reverse)

/-- Mirror of `startsWith` for a single-character pattern (the only
form the source uses: `'.'` and `'#'`). -/
def startsWithChar (s : String) (c : Char) : Bool :=
  match s.data with
  | [] => false
  | x :: _ => x = c

/-- Mirror of `path.basename`: the last `/`-separated component (the
paths the provider handles have no trailing separator). -/
def basename (p : String) : String :=
  String.mk ((((splitOnChar '/' p.data).getLast?).getD p.data))

/-- Mirror of `maxHistorySize = 50`. -/
def maxHistorySize : Nat := 50

/-- Mirror of `DEFAULT_GROUP = 'default'`. -/
def DEFAULT_GROUP : String := "default"

/-- State built by the constructor: one `default` group with empty
files and subgroups, no active group, empty history. -/
def initState : ProviderState :=
  { heap := [emptyGroup]
    groups := [(DEFAULT_GROUP, 0)]
    activeGroup := none
    history := [] }

/-- Mirror of the history update in `saveToHistory`: push, then
`shift()` once the length exceeds `maxHistorySize`. -/
def historyPush (h : List HistorySnapshot) (snap : HistorySnapshot) :
    List HistorySnapshot :=
  let h' := h ++ [snap]
  if maxHistorySize < h'.length then h'.drop 1 else h'

/-- Mirror of `saveToHistory(type, data)`: snapshot the current
name-to-reference map (shallow copy) and `activeGroup`, bounded FIFO. -/
def saveToHistory (s : ProviderState) (type : String) : ProviderState :=
  let snap : HistorySnapshot :=
    { type := type, groupsCopy := s.groups, activeGroup := s.activeGroup }
  { s with history := historyPush s.history snap }

/-- Mirror of `undo()`.  When history is empty the provider only shows
an information message.  Otherwise the last snapshot's `groups` map and
`activeGroup` replace the live ones and the snapshot is popped.  (The
`this.groups.set(DEFAULT_GROUP, { files: new Map(defaultGroup), ... })`
statement that precedes `this.groups = new Map(lastOperation.groups)`
mutates a map object that the very next line discards, and the object
it allocates is never referenced afterwards, so it has no observable
effect and is not modelled.) -/
def undo (s : ProviderState) : ProviderState :=
  match s.history.getLast? with
  | none => s
  | some snap =>
      { s with groups := snap.groupsCopy
               activeGroup := snap.activeGroup
               history := s.history.dropLast }

/-- Shape of a filesystem subtree, for `fs.readdirSync(...,
{ withFileTypes: true })`: either a file entry or a directory entry
with its own listing. -/
inductive FsEntry where
  | file (name : String)
  | dir (name : String) (entries : List FsEntry)

/-- Name of a directory entry (`entry.name`). -/
def FsEntry.name : FsEntry → String
  | .file n => n
  | .dir n _ => n

/-- Mirror of `getAllFilesInDirectory`: walk the listing in order,
skip every entry whose name starts with `'.'`, recurse into
directories, collect files.  `path.join(dirPath, entry.name)` is
modelled as `dirPath ++ "/" ++ entry.name`. -/
def getAllFilesInDirectory (dirPath : String) : List FsEntry → List String
  | [] => []
  | e :: rest =>
      if startsWithChar (FsEntry.name e) '.' then
        getAllFilesInDirectory dirPath rest
      else
        match e with
        | .file n => (dirPath ++ "/" ++ n) :: getAllFilesInDirectory dirPath rest
        | .dir n sub =>
            getAllFilesInDirectory (dirPath ++ "/" ++ n) sub ++
              getAllFilesInDirectory dirPath rest

/-- Result of `fs.statSync(uri.fsPath)` in `addFavorite`: a plain file,
a directory (with its recursive listing), or a thrown error. -/
inductive StatResult where
  | file
  | dir (entries : List FsEntry)
  | err

/-- Update the object behind reference `r` to hold the given `files`
map (the shared `group.files.set` / `.delete` mutation pattern). -/
def setFilesAt (s : ProviderState) (r : Ref) (obj : GroupObj)
    (files : List (String × FavoriteItem)) : ProviderState :=
  let obj' : GroupObj :=
    { files := files, subGroups := obj.subGroups, parentGroup := obj.parentGroup }
  { s with heap := heapSet s.heap r obj' }

/-- Insertion step shared by both branches of `addFavorite`: build the
favorite (note: without `groupName`), resolve the target group as
`this.activeGroup || DEFAULT_GROUP`, and `group.files.set` when the
target exists. -/
def insertFavorite (s : ProviderState) (filePath : String) : ProviderState :=
  let favorite : FavoriteItem :=
    { path := filePath, name := basename filePath, groupName := none }
  let targetGroup := s.activeGroup.getD DEFAULT_GROUP
  match mapGet s.groups targetGroup with
  | none => s
  | some r =>
      match heapGet s.heap r with
      | none => s
      | some obj => setFilesAt s r obj (mapSet obj.files filePath favorite)

/-- Mirror of `addFavorite(uri)`: history snapshot first, then a stat;
directories are expanded by `getAllFilesInDirectory`, a plain file is
inserted directly, and a stat error leaves only the snapshot. -/
def addFavorite (s : ProviderState) (path : String) (st : StatResult) :
    ProviderState :=
  let s1 := saveToHistory s "add"
  match st with
  | .err => s1
  | .file => insertFavorite s1 path
  | .dir entries =>
      (getAllFilesInDirectory path entries).foldl insertFavorite s1

/-- Mirror of `removeFavorite(item)`: snapshot, then delete
`item.path` from the group named `item.groupName` — deleting the whole
group when its `files` map becomes empty — or from the default group
(with no such emptiness check) when `groupName` is unset. -/
def removeFavorite (s : ProviderState) (item : FavoriteItem) : ProviderState :=
  let s1 := saveToHistory s "remove"
  match item.groupName with
  | some gn =>
      (match mapGet s1.groups gn with
       | none => s1
       | some r =>
          match heapGet s1.heap r with
          | none => s1
          | some obj =>
              let files' := mapDelete obj.files item.path
              let s2 := setFilesAt s1 r obj files'
              if files'.isEmpty then
                { s2 with groups := mapDelete s2.groups gn }
              else s2)
  | none =>
      match mapGet s1.groups DEFAULT_GROUP with
      | none => s1
      | some r =>
          match heapGet s1.heap r with
          | none => s1
          | some obj => setFilesAt s1 r obj (mapDelete obj.files item.path)

/-- Register a fresh empty top-level group under `name` (the
`if (!this.groups.has(name)) this.groups.set(name, {...})` pattern). -/
def ensureGroup (s : ProviderState) (name : String) : ProviderState :=
  if mapHas s.groups name then s
  else
    let (sa, r) := alloc s emptyGroup
    { sa with groups := mapSet sa.groups name r }

/-- Mirror of `addToGroup(uri, groupName)` with the group name already
resolved (the picker/input-box path only supplies an existing group or
a validated fresh name): create the group if missing, then insert the
favorite with `groupName` set.  No history snapshot is taken. -/
def addToGroup (s : ProviderState) (path : String) (groupName : String) :
    ProviderState :=
  let s1 := ensureGroup s groupName
  let favorite : FavoriteItem :=
    { path := path, name := basename path, groupName := some groupName }
  match mapGet s1.groups groupName with
  | none => s1
  | some r =>
      match heapGet s1.heap r with
      | none => s1
      | some obj => setFilesAt s1 r obj (mapSet obj.files path favorite)

/-- Mirror of `renameGroup(groupElement)` for a group node.  The
default group is refused with a warning.  `input` is the input-box
result: `none` is cancellation, and the box's `validateInput` refuses
the empty string and names of existing other groups, so such inputs
never reach the mutation (modelled as no-ops).  A successful rename
moves the same `GroupData` object to the new key and rewrites
`groupName` on every contained item — without touching history, the
parent's `subGroups` entry, or the children's `parentGroup` fields. -/
def renameGroup (s : ProviderState) (oldName : String) (input : Option String) :
    ProviderState :=
  if oldName = DEFAULT_GROUP then s
  else
    match input with
    | none => s
    | some newName =>
        if newName = "" then s
        else if mapHas s.groups newName ∧ newName ≠ oldName then s
        else if newName = oldName then s
        else
          match mapGet s.groups oldName with
          | none => s
          | some r =>
              let groups' := mapDelete (mapSet s.groups newName r) oldName
              let heap' :=
                match heapGet s.heap r with
                | none => s.heap
                | some obj =>
                    let retagged := obj.files.map
                      (fun q => (q.1,
                        { path := q.2.path, name := q.2.name,
                          groupName := some newName }))
                    heapSet s.heap r
                      { files := retagged, subGroups := obj.subGroups,
                        parentGroup := obj.parentGroup }
              { s with groups := groups', heap := heap' }

/-- Recursive body of `deleteGroup`'s `deleteSubGroups`: walk the
`subGroups` names depth-first against the evolving `groups` map
(the heap is not written during the walk).  The JavaScript recursion
is bounded only by the data; the explicit `fuel` (instantiated with
the size of the live map, which the nesting depth can never exceed on
the forest-shaped states the provider builds) makes it structurally
terminating without changing its value on those states. -/
def delSubs (heap : List GroupObj) (fuel : Nat) (groups : List (String × Ref)) :
    List String → List (String × Ref)
  | [] => groups
  | n :: rest =>
      match mapGet groups n with
      | none => delSubs heap fuel groups rest
      | some r =>
          match fuel with
          | 0 => groups
          | fuel' + 1 =>
              let subs := ((heapGet heap r).map GroupObj.subGroups).getD []
              let g1 := delSubs heap fuel' groups subs
              delSubs heap (fuel' + 1) (mapDelete g1 n) rest
  termination_by names => (fuel, names.length)

/-- Mirror of `deleteGroup(groupElement)` for a group node: history
snapshot (taken unconditionally, before any check), delete the entry,
remove the name from the parent's `subGroups` when `parentGroup` is
set, then recursively delete the `subGroups` descendants.  There is no
default-group check in this method. -/
def deleteGroup (s : ProviderState) (name : String) : ProviderState :=
  let s1 := saveToHistory s "deleteGroup"
  match mapGet s1.groups name with
  | none => s1
  | some r =>
      match heapGet s1.heap r with
      | none => s1
      | some obj =>
          let groups1 := mapDelete s1.groups name
          let heap1 :=
            match obj.parentGroup with
            | none => s1.heap
            | some p =>
                match mapGet groups1 p with
                | none => s1.heap
                | some pr =>
                    match heapGet s1.heap pr with
                    | none => s1.heap
                    | some pobj =>
                        heapSet s1.heap pr
                          { files := pobj.files,
                            subGroups := subDel pobj.subGroups name,
                            parentGroup := pobj.parentGroup }
          { s1 with groups := delSubs heap1 groups1.length groups1 obj.subGroups
                    heap := heap1 }

/-- Mirror of `addNewGroup(parentGroup)`: the input box's
`validateInput` refuses the empty string and duplicates ('Group name
already exists'), so only a fresh nonempty name reaches the mutation
(`none` is cancellation).  A fresh `GroupData` is registered under the
name, with `parentGroup` set and the name added to the parent's
`subGroups` when a parent is given.  No history snapshot is taken. -/
def addNewGroup (s : ProviderState) (input : Option String)
    (parent : Option String) : ProviderState :=
  match input with
  | none => s
  | some name =>
      if name = "" then s
      else if mapHas s.groups name then s
      else
        let fresh : GroupObj :=
          { files := [], subGroups := [], parentGroup := parent }
        let (s1, r) := alloc s fresh
        let s2 := { s1 with groups := mapSet s1.groups name r }
        match parent with
        | none => s2
        | some p =>
            match mapGet s2.groups p with
            | none => s2
            | some pr =>
                match heapGet s2.heap pr with
                | none => s2
                | some pobj =>
                    let pobj' : GroupObj :=
                      { files := pobj.files,
                        subGroups := subAdd pobj.subGroups name,
                        parentGroup := pobj.parentGroup }
                    { s2 with heap := heapSet s2.heap pr pobj' }

/-- Deletion of `item.path` from the group named `gn` when it exists
(the `group.files.delete(item.path)` pattern of `moveToGroup` and
`handleDrop`; no emptiness pruning here). -/
def dropFromGroup (s : ProviderState) (gn : String) (path : String) :
    ProviderState :=
  match mapGet s.groups gn with
  | none => s
  | some r =>
      match heapGet s.heap r with
      | none => s
      | some obj => setFilesAt s r obj (mapDelete obj.files path)

/-- Insertion of an already-built item into the group named `gn` when
it exists (the `group.files.set(path, item)` pattern). -/
def putInGroup (s : ProviderState) (gn : String) (item : FavoriteItem) :
    ProviderState :=
  match mapGet s.groups gn with
  | none => s
  | some r =>
      match heapGet s.heap r with
      | none => s
      | some obj => setFilesAt s r obj (mapSet obj.files item.path item)

/-- Per-item body of `moveToGroup` once the quick-pick has resolved
`finalTargetGroup` (a plain group name; the `'(Default Group)'` pick
resolves to `DEFAULT_GROUP` before this loop).  Moving to the default
group deletes the item from its named group (nothing is deleted when
`groupName` is unset) and clears `groupName`; moving to any other name
removes the item from its named group (or the default group when
`groupName` is unset), sets `groupName`, creates the target group if
missing (fresh, empty, top-level), and inserts. -/
def moveToGroupItem (s : ProviderState) (item : FavoriteItem)
    (finalTargetGroup : String) : ProviderState :=
  if finalTargetGroup = DEFAULT_GROUP then
    let s1 :=
      match item.groupName with
      | none => s
      | some gn => dropFromGroup s gn item.path
    let item' : FavoriteItem :=
      { path := item.path, name := item.name, groupName := none }
    putInGroup s1 DEFAULT_GROUP item'
  else
    let s1 :=
      match item.groupName with
      | some gn => dropFromGroup s gn item.path
      | none => dropFromGroup s DEFAULT_GROUP item.path
    let item' : FavoriteItem :=
      { path := item.path, name := item.name, groupName := some finalTargetGroup }
    let s2 := ensureGroup s1 finalTargetGroup
    putInGroup s2 finalTargetGroup item'

/-- Per-item body of `copyToGroup` once the quick-pick has resolved
`finalTargetGroup` (here the `'(Default Group)'` pick keeps that
literal string).  A spread copy of the item is inserted — into the
default group without `groupName`, or into the named target (created
fresh and top-level if missing) with `groupName` set; the source entry
is left in place. -/
def copyToGroupItem (s : ProviderState) (item : FavoriteItem)
    (finalTargetGroup : String) : ProviderState :=
  if finalTargetGroup = "(Default Group)" then
    let newItem : FavoriteItem :=
      { path := item.path, name := item.name, groupName := none }
    putInGroup s DEFAULT_GROUP newItem
  else
    let newItem : FavoriteItem :=
      { path := item.path, name := item.name, groupName := some finalTargetGroup }
    let s1 := ensureGroup s finalTargetGroup
    putInGroup s1 finalTargetGroup newItem

/-- Sources in a drag payload carry the dragged item plus the dynamic
`type` tag `handleDrop` tests (`source.type === 'file'`). -/
structure DropSource where
  path : String
  name : String
  groupName : Option String
  type : Option String
  deriving Repr, DecidableEq

/-- Per-source body of `handleDrop` for a drop onto a group node
`target` (the drop-onto-root branch is dead code: the handler returns
immediately when `target` is undefined).  Only sources tagged
`type === 'file'` are processed: for a move the source is first
deleted from its named group (or the default group), then the target
group is created if missing (fresh, empty, top-level) and a copy of
the source with `groupName := target` is inserted. -/
def handleDropSource (s : ProviderState) (target : String) (isCopy : Bool)
    (src : DropSource) : ProviderState :=
  if src.type = some "file" then
    let s1 :=
      if isCopy then s
      else
        match src.groupName with
        | some gn => dropFromGroup s gn src.path
        | none => dropFromGroup s DEFAULT_GROUP src.path
    let newItem : FavoriteItem :=
      { path := src.path, name := src.name, groupName := some target }
    let s2 := ensureGroup s1 target
    putInGroup s2 target newItem
  else s

/-- Mirror of `handleDrop` onto a group node: every source is
processed in order, then one persist/refresh. -/
def handleDrop (s : ProviderState) (target : String) (isCopy : Bool)
    (sources : List DropSource) : ProviderState :=
  sources.foldl (fun st src => handleDropSource st target isCopy src) s

/-- Mirror of `removeAll()`: snapshot, then — when some group has
files — clear every group's `files` map in place (groups and heap
objects survive as empty shells). -/
def removeAll (s : ProviderState) : ProviderState :=
  let s1 := saveToHistory s "removeAll"
  let hasFiles := s1.groups.any fun p =>
    match heapGet s1.heap p.2 with
    | some obj => !obj.files.isEmpty
    | none => false
  if !hasFiles then s1
  else
    let clearAt := fun (h : List GroupObj) (p : String × Ref) =>
      match heapGet h p.2 with
      | none => h
      | some obj =>
          heapSet h p.2
            { files := [], subGroups := obj.subGroups,
              parentGroup := obj.parentGroup }
    { s1 with heap := s1.groups.foldl clearAt s1.heap }

/-- Mirror of `setActiveGroup(groupName)`: no validation, no history
snapshot. -/
def setActiveGroup (s : ProviderState) (groupName : Option String) :
    ProviderState :=
  { s with activeGroup := groupName }

/-- Result type of `vscode.workspace.fs.stat` as `addFilesFromText`
uses it: `none` models a thrown error (missing path). -/
inductive FileType where
  | file
  | directory
  | symbolicLink
  | unknown
  deriving Repr, DecidableEq

/-- Line parsing shared by `addFilesFromText` and
`addFilesFromClipboard`: split on newlines, drop blank lines and lines
whose trimmed form starts with `#`, trim the rest. -/
def parsePaths (text : String) : List String :=
  let lines := (splitOnChar '\n' text.data).map String.mk
  (lines.filter
    (fun line => !((trimStr line) = "") && !(startsWithChar (trimStr line) '#'))).map
    (fun line => trimStr line)

/-- Severity of the result message `addFilesFromText` shows. -/
inductive ReportLevel where
  | info
  | warning
  | error
  deriving Repr, DecidableEq

/-- Mirror of the message choice at the end of `addFilesFromText`:
information on full success, warning on partial success, error when
nothing was added but something failed, and no message otherwise. -/
def reportOf (addedCount errorCount : Nat) : Option ReportLevel :=
  if 0 < addedCount ∧ errorCount = 0 then some .info
  else if 0 < addedCount ∧ 0 < errorCount then some .warning
  else if addedCount = 0 ∧ 0 < errorCount then some .error
  else none

/-- Outcome of `addFilesFromText`. -/
structure ImportResult where
  state : ProviderState
  addedCount : Nat
  errorCount : Nat
  report : Option ReportLevel
  deriving Repr, DecidableEq

/-- Loop body of `addFilesFromText`: stat the path; a regular file is
inserted into the target group (counting as added only when the group
exists); anything else — directories, other types, stat errors —
counts as failed. -/
def importStep (groupName : String) (stat : String → Option FileType)
    (acc : ProviderState × Nat × Nat) (filePath : String) :
    ProviderState × Nat × Nat :=
  let s := acc.1
  let added := acc.2.1
  let failed := acc.2.2
  match stat filePath with
  | some .file =>
      let favorite : FavoriteItem :=
        { path := filePath, name := basename filePath,
          groupName := some groupName }
      (match mapGet s.groups groupName with
       | none => (s, added, failed)
       | some r =>
          match heapGet s.heap r with
          | none => (s, added, failed)
          | some obj =>
              (setFilesAt s r obj (mapSet obj.files filePath favorite),
               added + 1, failed))
  | some _ => (s, added, failed + 1)
  | none => (s, added, failed + 1)

/-- Mirror of `addFilesFromText(groupName, text)`: parse the candidate
paths, process each, and report aggregate counts.  No history snapshot
is taken. -/
def addFilesFromText (s : ProviderState) (groupName : String) (text : String)
    (stat : String → Option FileType) : ImportResult :=
  let out := (parsePaths text).foldl (importStep groupName stat) (s, 0, 0)
  { state := out.1, addedCount := out.2.1, errorCount := out.2.2,
    report := reportOf out.2.1 out.2.2 }

/-- Persisted form of one group in `.vscode/favor.json`: file paths
and the parent-group reference (`subGroups` is NOT persisted). -/
structure JsonGroupData where
  files : List String
  parentGroup : Option String

/-- Pure core of `loadFavorites` applied to a parsed document: each
persisted group is rebuilt with name-derived items, an EMPTY
`subGroups` map, and the stored `parentGroup`; the default group is
re-added only if the document lacks it; `activeGroup` is taken from
the document. -/
def loadFavorites (s : ProviderState)
    (data : List (String × JsonGroupData)) (activeGroup : Option String) :
    ProviderState :=
  let loadOne := fun (st : ProviderState) (entry : String × JsonGroupData) =>
    let files := entry.2.files.foldl
      (fun m filePath =>
        mapSet m filePath
          { path := filePath, name := basename filePath, groupName := none })
      []
    let loaded : GroupObj :=
      { files := files, subGroups := [], parentGroup := entry.2.parentGroup }
    let (sa, r) := alloc st loaded
    { sa with groups := mapSet sa.groups entry.1 r }
  let s1 := data.foldl loadOne s
  let s2 := ensureGroup s1 DEFAULT_GROUP
  { s2 with activeGroup := activeGroup }

/-- Observable content of the store: the group mapping with each name
resolved to the object it references (what "deep equality of the group
mapping" compares), read through the heap. -/
def groupMapping (s : ProviderState) : List (String × Option GroupObj) :=
  s.groups.map fun p => (p.1, heapGet s.heap p.2)

/-- Specification-side description of which files directory favoriting
should enumerate (from the spec: "recursively enumerates files beneath
it, skipping dotfiles/dot-directories"): a file entry whose name does
not start with `'.'`, reached through directory entries whose names do
not start with `'.'`. -/
inductive EnumeratedFile : String → List FsEntry → String → Prop where
  | here (dirPath : String) (entries : List FsEntry) (n : String) :
      startsWithChar n '.' = false →
      FsEntry.file n ∈ entries →
      EnumeratedFile dirPath entries (dirPath ++ "/" ++ n)
  | deeper (dirPath : String) (entries : List FsEntry) (n : String)
      (sub : List FsEntry) (p : String) :
      startsWithChar n '.' = false →
      FsEntry.dir n sub ∈ entries →
      EnumeratedFile (dirPath ++ "/" ++ n) sub p →
      EnumeratedFile dirPath entries p

/-- Well-formedness of a groups map against a heap: references are
valid and mutually distinct, keys are unique (JavaScript `Map`s cannot
hold duplicate keys), and every contained item's `groupName`, when
set, names its containing group. -/
structure GInv (heap : List GroupObj) (groups : List (String × Ref)) : Prop where
  valid : ∀ q ∈ groups, q.2 < heap.length
  refsNodup : (groups.map (fun q => q.2)).Nodup
  keysNodup : (keysOf groups).Nodup
  denorm : ∀ q ∈ groups, ∀ obj, heapGet heap q.2 = some obj →
    ∀ e ∈ obj.files, ∀ n, e.2.groupName = some n → n = q.1

/-- The provider-state invariant. -/
def Inv (s : ProviderState) : Prop :=
  GInv s.heap s.groups

/-- Executable check of the weak denormalization property: every item
whose `groupName` is set lies in the group of that name. -/
def denormWeakOK (s : ProviderState) : Bool :=
  s.groups.all fun q =>
    match heapGet s.heap q.2 with
    | none => true
    | some obj =>
        obj.files.all fun e =>
          match e.2.groupName with
          | none => true
          | some n => n = q.1

/-- One user-level mutation of the provider, with its external inputs
(stat results, dialog answers) made explicit. -/
inductive Op where
  | add (path : String) (st : StatResult)
  | remove (item : FavoriteItem)
  | addTo (path : String) (groupName : String)
  | rename (oldName : String) (input : Option String)
  | deleteG (name : String)
  | create (input : Option String) (parent : Option String)
  | move (item : FavoriteItem) (target : String)
  | copy (item : FavoriteItem) (target : String)
  | drop (target : String) (isCopy : Bool) (sources : List DropSource)
  | clearAll
  | setActive (g : Option String)
  | importText (groupName : String) (text : String)
      (stat : String → Option FileType)

/-- Dispatch of one operation. -/
def applyOp (s : ProviderState) : Op → ProviderState
  | .add p st => addFavorite s p st
  | .remove item => removeFavorite s item
  | .addTo p gn => addToGroup s p gn
  | .rename o i => renameGroup s o i
  | .deleteG n => deleteGroup s n
  | .create i par => addNewGroup s i par
  | .move item t => moveToGroupItem s item t
  | .copy item t => copyToGroupItem s item t
  | .drop t c srcs => handleDrop s t c srcs
  | .clearAll => removeAll s
  | .setActive g => setActiveGroup s g
  | .importText gn text stat => (addFilesFromText s gn text stat).state

/-- The store after a sequence of operations on the fresh provider. -/
def applyOps (ops : List Op) : ProviderState :=
  ops.foldl applyOp initState

/-- States the provider can reach by user operations. -/
def Reachable (s : ProviderState) : Prop :=
  ∃ ops : List Op, s = applyOps ops

/-- A forest of group names: `node name children siblings` is a group
with its forest of child groups and the remaining sibling groups
(a first-child/next-sibling encoding, which keeps all recursion
structural). -/
inductive GForest where
  | nil
  | node (name : String) (children : GForest) (siblings : GForest)

/-- Top-level names of the forest. -/
def GForest.roots : GForest → List String
  | .nil => []
  | .node n _ sib => n :: sib.roots

/-- All names in the forest. -/
def GForest.names : GForest → List String
  | .nil => []
  | .node n c sib => n :: (c.names ++ sib.names)

/-- Nesting depth of the forest. -/
def GForest.depth : GForest → Nat
  | .nil => 0
  | .node _ c sib => max (c.depth + 1) sib.depth

/-- The groups map realizes the forest: every node is a live group
whose `subGroups` key list is exactly the list of its children's
names, recursively. -/
def MatchesForest (heap : List GroupObj) (groups : List (String × Ref)) :
    GForest → Prop
  | .nil => True
  | .node n c sib =>
      (∃ r obj, mapGet groups n = some r ∧ heapGet heap r = some obj ∧
        obj.subGroups = GForest.roots c ∧ MatchesForest heap groups c) ∧
      MatchesForest heap groups sib

/-- Key filter removing a set of names from a groups map. -/
def removeNames (names : List String) (groups : List (String × Ref)) :
    List (String × Ref) :=
  groups.filter fun q => !(names.contains q.1)

theorem getLast?_historyPush (h : List HistorySnapshot) (snap : HistorySnapshot) :
    (historyPush h snap).getLast? = some snap := by
  unfold historyPush
  by_cases hc : maxHistorySize < (h ++ [snap]).length
  · simp only [hc, if_true]
    have hne : h ≠ [] := by
      intro he
      subst he
      simp [maxHistorySize] at hc
    rw [show (h ++ [snap]).drop 1 = h.drop 1 ++ [snap] by
      cases h with
      | nil => exact absurd rfl hne
      | cons x xs => simp]
    exact List.getLast?_concat _
  · simp only [hc, if_false]
    exact List.getLast?_concat _

theorem history_saveToHistory (s : ProviderState) (ty : String) :
    (saveToHistory s ty).history =
      historyPush s.history ⟨ty, s.groups, s.activeGroup⟩ := rfl

theorem undo_of_history (s' : ProviderState) (snap : HistorySnapshot)
    (hh : s'.history.getLast? = some snap) :
    (undo s').groups = snap.groupsCopy ∧
      (undo s').activeGroup = snap.activeGroup := by
  unfold undo
  rw [hh]
  exact ⟨rfl, rfl⟩

theorem history_insertFavorite (s : ProviderState) (p : String) :
    (insertFavorite s p).history = s.history := by
  unfold insertFavorite
  dsimp only
  split
  · rfl
  · split
    · rfl
    · rfl

theorem history_foldl_insertFavorite (ps : List String) (s : ProviderState) :
    (ps.foldl insertFavorite s).history = s.history := by
  induction ps generalizing s with
  | nil => rfl
  | cons p rest ih => rw [List.foldl_cons, ih, history_insertFavorite]

theorem history_addFavorite (s : ProviderState) (p : String) (st : StatResult) :
    (addFavorite s p st).history = (saveToHistory s "add").history := by
  unfold addFavorite
  cases st with
  | err => rfl
  | file => exact history_insertFavorite _ _
  | dir entries => exact history_foldl_insertFavorite _ _

theorem history_removeFavorite (s : ProviderState) (item : FavoriteItem) :
    (removeFavorite s item).history = (saveToHistory s "remove").history := by
  unfold removeFavorite
  dsimp only
  split
  · split
    · rfl
    · split
      · rfl
      · split
        · rfl
        · rfl
  · split
    · rfl
    · split
      · rfl
      · rfl

theorem history_deleteGroup (s : ProviderState) (name : String) :
    (deleteGroup s name).history = (saveToHistory s "deleteGroup").history := by
  unfold deleteGroup
  dsimp only
  split
  · rfl
  · split
    · rfl
    · rfl

theorem history_removeAll (s : ProviderState) :
    (removeAll s).history = (saveToHistory s "removeAll").history := by
  unfold removeAll
  dsimp only
  split
  · rfl
  · rfl

theorem undo_after_snapshot (s s' : ProviderState) (ty : String)
    (hh : s'.history = (saveToHistory s ty).history) :
    (undo s').groups = s.groups ∧ (undo s').activeGroup = s.activeGroup := by
  have h1 : s'.history.getLast? = some ⟨ty, s.groups, s.activeGroup⟩ := by
    rw [hh, history_saveToHistory]
    exact getLast?_historyPush _ _
  exact undo_of_history s' _ h1

/-- C1: as stated the claim is FALSE (see the counterexample); amended:
for the operations that do record a history snapshot (`addFavorite`,
`removeFavorite`, `deleteGroup`, `removeAll`), running the operation and
then `undo()` restores the previous name-to-object-reference `groups`
map and the previous `activeGroup` value — the snapshot is a shallow
copy, so the objects those references point at are NOT restored. -/
theorem undo_restores_groupsMap_and_activeGroup :
    ∀ (s : ProviderState) (path : String) (st : StatResult)
      (item : FavoriteItem) (name : String),
      ((undo (addFavorite s path st)).groups = s.groups ∧
        (undo (addFavorite s path st)).activeGroup = s.activeGroup) ∧
      ((undo (removeFavorite s item)).groups = s.groups ∧
        (undo (removeFavorite s item)).activeGroup = s.activeGroup) ∧
      ((undo (deleteGroup s name)).groups = s.groups ∧
        (undo (deleteGroup s name)).activeGroup = s.activeGroup) ∧
      ((undo (removeAll s)).groups = s.groups ∧
        (undo (removeAll s)).activeGroup = s.activeGroup) := by
  intro s path st item name
  exact ⟨undo_after_snapshot s _ "add" (history_addFavorite s path st),
    undo_after_snapshot s _ "remove" (history_removeFavorite s item),
    undo_after_snapshot s _ "deleteGroup" (history_deleteGroup s name),
    undo_after_snapshot s _ "removeAll" (history_removeAll s)⟩

/-- C1 counterexample: `addFavorite` of a single file followed by
`undo()` does NOT restore the prior group mapping — the snapshot
shares the default group's `GroupData` object, whose `files` map was
mutated in place, so the added file survives the undo. -/
theorem undo_addFavorite_not_roundtrip :
    groupMapping (undo (addFavorite initState "/a.txt" StatResult.file)) ≠
      groupMapping initState := by decide

/-- C2: as stated the claim is FALSE (see the counterexample); amended:
`renameGroup` refuses to rename the default group (warning shown, store
unchanged in every component), but `deleteGroup` has no default-group
protection — applied to `default` it deletes the group (the protection
exists only in the UI layer: the tree item for the default group gets
no delete button and the `deleteGroup` menu entries are restricted to
non-default `viewItem`s; there are no deletion modes in the code). -/
theorem default_group_protection :
    (∀ (s : ProviderState) (input : Option String),
        renameGroup s DEFAULT_GROUP input = s) ∧
      mapHas (deleteGroup initState DEFAULT_GROUP).groups DEFAULT_GROUP
        = false := by
  constructor
  · intro s input
    unfold renameGroup
    simp
  · simp [deleteGroup, delSubs, saveToHistory, historyPush, mapGet, mapDelete,
      mapHas, heapGet, heapSet, initState, DEFAULT_GROUP, maxHistorySize,
      emptyGroup]

/-- C2 counterexample: `deleteGroup('default')` does not fail and does
not leave the store unchanged — it removes the default group. -/
theorem deleteGroup_default_not_protected :
    mapHas (deleteGroup initState "default").groups "default" = false ∧
      groupMapping (deleteGroup initState "default") ≠ groupMapping initState := by
  constructor
  · simp [deleteGroup, delSubs, saveToHistory, historyPush, mapGet, mapDelete,
      mapHas, heapGet, heapSet, initState, DEFAULT_GROUP, maxHistorySize,
      emptyGroup]
  · intro h
    have : (groupMapping (deleteGroup initState "default")).length =
        (groupMapping initState).length := by rw [h]
    revert this
    simp [deleteGroup, delSubs, saveToHistory, historyPush, mapGet, mapDelete,
      mapHas, heapGet, heapSet, initState, DEFAULT_GROUP, maxHistorySize,
      emptyGroup, groupMapping]


theorem mem_keysOf_cons {α : Type} (p : String × α) (rest : List (String × α))
    (k : String) : k ∈ keysOf (p :: rest) ↔ k = p.1 ∨ k ∈ keysOf rest := by
  rw [keysOf, List.map_cons, List.mem_cons]
  rfl

theorem mapGet_eq_none_iff {α : Type} (k : String) :
    ∀ (m : List (String × α)), mapGet m k = none ↔ k ∉ keysOf m := by
  intro m
  induction m with
  | nil =>
      constructor
      · intro _ hmem
        simp [keysOf] at hmem
      · intro _
        rfl
  | cons p rest ih =>
      by_cases h : p.1 = k
      · constructor
        · intro hn
          rw [mapGet, if_pos h] at hn
          exact absurd hn (by simp)
        · intro hmem
          refine absurd ?_ hmem
          rw [mem_keysOf_cons]
          exact Or.inl h.symm
      · constructor
        · intro hn hmem
          rw [mapGet, if_neg h] at hn
          rw [mem_keysOf_cons] at hmem
          rcases hmem with he | hm
          · exact h he.symm
          · exact (ih.mp hn) hm
        · intro hmem
          rw [mapGet, if_neg h]
          refine ih.mpr ?_
          intro hm
          refine hmem ?_
          rw [mem_keysOf_cons]
          exact Or.inr hm

theorem mapHas_false_iff {α : Type} (m : List (String × α)) (k : String) :
    mapHas m k = false ↔ k ∉ keysOf m := by
  rw [mapHas, show ((mapGet m k).isSome = false ↔ mapGet m k = none) from by
    cases mapGet m k <;> simp]
  exact mapGet_eq_none_iff k m

theorem mapHas_true_iff {α : Type} (m : List (String × α)) (k : String) :
    mapHas m k = true ↔ k ∈ keysOf m := by
  constructor
  · intro h
    by_contra hmem
    rw [← mapHas_false_iff m k] at hmem
    rw [h] at hmem
    exact Bool.noConfusion hmem
  · intro h
    cases hb : mapHas m k with
    | true => rfl
    | false => exact absurd h ((mapHas_false_iff m k).mp hb)

theorem mapSet_of_not_mem {α : Type} {m : List (String × α)} {k : String}
    (v : α) (h : k ∉ keysOf m) : mapSet m k v = m ++ [(k, v)] := by
  induction m with
  | nil => rfl
  | cons p rest ih =>
      have h1 : ¬ p.1 = k := by
        intro he
        refine h ?_
        rw [mem_keysOf_cons]
        exact Or.inl he.symm
      have h2 : k ∉ keysOf rest := by
        intro hm
        refine h ?_
        rw [mem_keysOf_cons]
        exact Or.inr hm
      rw [mapSet, if_neg h1, ih h2]
      rfl

theorem mem_of_mapGet_eq_some {α : Type} {m : List (String × α)} {k : String}
    {v : α} (h : mapGet m k = some v) : (k, v) ∈ m := by
  induction m with
  | nil => exact absurd h (by rw [mapGet]; simp)
  | cons p rest ih =>
      by_cases hp : p.1 = k
      · rw [mapGet, if_pos hp] at h
        obtain rfl := Option.some.inj h
        have he : (k, p.2) = p := by rw [← hp]
        rw [he]
        exact List.mem_cons_self p rest
      · rw [mapGet, if_neg hp] at h
        exact List.mem_cons_of_mem _ (ih h)

theorem mapGet_mapDelete_ne {α : Type} (m : List (String × α)) {k k' : String}
    (h : k' ≠ k) : mapGet (mapDelete m k) k' = mapGet m k' := by
  induction m with
  | nil => rfl
  | cons p rest ih =>
      by_cases hp : p.1 = k
      · rw [mapDelete, if_pos hp, mapGet, if_neg]
        rw [hp]
        exact fun he => h he.symm
      · by_cases hp' : p.1 = k'
        · rw [mapDelete, if_neg hp, mapGet, if_pos hp', mapGet, if_pos hp']
        · rw [mapDelete, if_neg hp, mapGet, if_neg hp', mapGet, if_neg hp']
          exact ih

theorem mapDelete_sublist {α : Type} (m : List (String × α)) (k : String) :
    (mapDelete m k).Sublist m := by
  induction m with
  | nil => exact List.Sublist.refl []
  | cons p rest ih =>
      by_cases hp : p.1 = k
      · rw [mapDelete, if_pos hp]
        exact List.sublist_cons_self p rest
      · rw [mapDelete, if_neg hp]
        exact List.Sublist.cons₂ p ih

theorem keysOf_mapDelete_sublist {α : Type} (m : List (String × α)) (k : String) :
    (keysOf (mapDelete m k)).Sublist (keysOf m) :=
  List.Sublist.map _ (mapDelete_sublist m k)

theorem keysOf_append {α : Type} (m m' : List (String × α)) :
    keysOf (m ++ m') = keysOf m ++ keysOf m' := by
  simp [keysOf]


/-- C5: as stated the claim is FALSE (see the counterexample); amended:
`removeFavorite` deletes the entry keyed by `item.path` from the group
named `item.groupName`, leaves the heap otherwise unchanged and the
active group untouched — but when that group's `files` map becomes
empty it ALSO deletes the group itself from the mapping (only the
`groupName`-unset branch, which deletes from the default group, lacks
this pruning). -/
theorem removeFavorite_characterization :
    ∀ (s : ProviderState) (item : FavoriteItem) (g : String) (r : Ref)
      (obj : GroupObj),
      item.groupName = some g →
      mapGet s.groups g = some r →
      heapGet s.heap r = some obj →
      (removeFavorite s item).activeGroup = s.activeGroup ∧
      (removeFavorite s item).heap =
        heapSet s.heap r
          { files := mapDelete obj.files item.path,
            subGroups := obj.subGroups, parentGroup := obj.parentGroup } ∧
      (removeFavorite s item).groups =
        (if (mapDelete obj.files item.path).isEmpty then mapDelete s.groups g
         else s.groups) := by
  intro s item g r obj hgn hget hheap
  unfold removeFavorite
  rw [hgn]
  dsimp only
  rw [show (saveToHistory s "remove").groups = s.groups from rfl, hget]
  dsimp only
  rw [show (saveToHistory s "remove").heap = s.heap from rfl, hheap]
  dsimp only
  by_cases hemp : (mapDelete obj.files item.path).isEmpty
  · rw [if_pos hemp, if_pos hemp]
    exact ⟨rfl, rfl, rfl⟩
  · rw [if_neg hemp, if_neg hemp]
    exact ⟨rfl, rfl, rfl⟩

/-- C5 witness: the amended characterization applied to a store holding
one group `g` with the single file `/a.txt`. -/
theorem removeFavorite_characterization_witness :
    (removeFavorite
        (addToGroup (addNewGroup initState (some "g") none) "/a.txt" "g")
        ⟨"/a.txt", "a.txt", some "g"⟩).activeGroup =
      (addToGroup (addNewGroup initState (some "g") none) "/a.txt" "g").activeGroup ∧
    (removeFavorite
        (addToGroup (addNewGroup initState (some "g") none) "/a.txt" "g")
        ⟨"/a.txt", "a.txt", some "g"⟩).heap =
      heapSet
        (addToGroup (addNewGroup initState (some "g") none) "/a.txt" "g").heap 1
        { files := mapDelete
            [("/a.txt", ⟨"/a.txt", "a.txt", some "g"⟩)] "/a.txt",
          subGroups := [], parentGroup := none } ∧
    (removeFavorite
        (addToGroup (addNewGroup initState (some "g") none) "/a.txt" "g")
        ⟨"/a.txt", "a.txt", some "g"⟩).groups =
      (if (mapDelete [("/a.txt", (⟨"/a.txt", "a.txt", some "g"⟩ : FavoriteItem))]
            "/a.txt").isEmpty then
          mapDelete
            (addToGroup (addNewGroup initState (some "g") none) "/a.txt" "g").groups
            "g"
        else
          (addToGroup (addNewGroup initState (some "g") none) "/a.txt" "g").groups) :=
  removeFavorite_characterization
    (addToGroup (addNewGroup initState (some "g") none) "/a.txt" "g")
    ⟨"/a.txt", "a.txt", some "g"⟩ "g" 1
    { files := [("/a.txt", ⟨"/a.txt", "a.txt", some "g"⟩)],
      subGroups := [], parentGroup := none }
    rfl (by decide) (by decide)

/-- C5 counterexample: removing the last file of group `g` deletes the
group `g` itself — the claim says the containing group is retained. -/
theorem removeFavorite_deletes_emptied_group :
    mapHas
      (removeFavorite
          (addToGroup (addNewGroup initState (some "g") none) "/a.txt" "g")
          ⟨"/a.txt", "a.txt", some "g"⟩).groups "g" = false ∧
    mapHas
      (addToGroup (addNewGroup initState (some "g") none) "/a.txt" "g").groups
      "g" = true := by decide

theorem len_historyPush (h : List HistorySnapshot) (x : HistorySnapshot) :
    (historyPush h x).length =
      if maxHistorySize < h.length + 1 then h.length else h.length + 1 := by
  unfold historyPush
  dsimp only
  split
  · rename_i hc
    rw [List.length_append] at hc
    simp only [List.length_singleton] at hc
    rw [List.length_drop, List.length_append]
    simp only [List.length_singleton]
    rw [if_pos hc]
    omega
  · rename_i hc
    rw [List.length_append] at hc
    simp only [List.length_singleton] at hc
    rw [List.length_append]
    simp only [List.length_singleton]
    rw [if_neg hc]

theorem history_len_foldl_addFavorite :
    ∀ (paths : List String) (s : ProviderState),
      s.history.length ≤ maxHistorySize →
      ((paths.foldl (fun st p => addFavorite st p StatResult.file) s).history).length
        = min (s.history.length + paths.length) maxHistorySize := by
  intro paths
  induction paths with
  | nil =>
      intro s h
      rw [List.foldl_nil]
      simp only [List.length_nil, Nat.add_zero]
      omega
  | cons p rest ih =>
      intro s h
      rw [List.foldl_cons]
      have hlen : (addFavorite s p StatResult.file).history.length =
          min (s.history.length + 1) maxHistorySize := by
        rw [history_addFavorite, history_saveToHistory, len_historyPush]
        split <;> omega
      have hle : (addFavorite s p StatResult.file).history.length ≤
          maxHistorySize := by omega
      rw [ih _ hle, hlen, List.length_cons]
      omega

/-- C6: as stated the claim is FALSE (see the counterexample — not all
mutating operations record history); amended: `saveToHistory` keeps the
log at no more than 50 snapshots; at exactly 50 it evicts the oldest
entry by insertion order (FIFO) and appends the new one; and 60
sequential history-recording mutations (here `addFavorite`) starting
from empty history leave exactly 50 snapshots. -/
theorem history_bound_fifo :
    (∀ (s : ProviderState) (ty : String),
        s.history.length ≤ maxHistorySize →
        (saveToHistory s ty).history.length ≤ maxHistorySize) ∧
    (∀ (s : ProviderState) (ty : String),
        s.history.length = maxHistorySize →
        (saveToHistory s ty).history =
          s.history.drop 1 ++
            [{ type := ty, groupsCopy := s.groups,
               activeGroup := s.activeGroup }]) ∧
    (∀ (paths : List String) (s : ProviderState),
        s.history = [] → paths.length = 60 →
        ((paths.foldl (fun st p => addFavorite st p StatResult.file) s).history).length
          = maxHistorySize) := by
  refine ⟨?_, ?_, ?_⟩
  · intro s ty h
    rw [history_saveToHistory, len_historyPush]
    split <;> omega
  · intro s ty h
    rw [history_saveToHistory]
    unfold historyPush
    dsimp only
    rw [if_pos (by rw [List.length_append, h]; simp only [List.length_singleton]; omega)]
    have hne : s.history ≠ [] := by
      intro he
      rw [he] at h
      simp [maxHistorySize] at h
    cases hh : s.history with
    | nil => exact absurd hh hne
    | cons a l => simp
  · intro paths s h0 h60
    rw [history_len_foldl_addFavorite paths s (by rw [h0]; simp)]
    rw [h0, h60]
    rfl

/-- C6 witness: 60 `addFavorite` calls on the fresh store leave exactly
50 history snapshots. -/
theorem history_bound_fifo_witness :
    (((List.replicate 60 "/x").foldl
        (fun st p => addFavorite st p StatResult.file) initState).history).length
      = maxHistorySize :=
  history_bound_fifo.2.2 (List.replicate 60 "/x") initState rfl (by decide)

/-- C6 counterexample: 60 sequential mutating operations need not leave
50 snapshots — `setActiveGroup` (a §4.1 mutating operation) never
records history, so 60 of them leave the log empty. -/
theorem sixty_mutations_without_history :
    ((List.replicate 60 (some "x")).foldl setActiveGroup initState).history.length
      = 0 := by decide

theorem nodup_keys_addNewGroup (s : ProviderState) (input : Option String)
    (parent : Option String) (h : (keysOf s.groups).Nodup) :
    (keysOf (addNewGroup s input parent).groups).Nodup := by
  unfold addNewGroup
  cases input with
  | none => exact h
  | some name =>
      dsimp only
      by_cases he : name = ""
      · rw [if_pos he]
        exact h
      · rw [if_neg he]
        by_cases hh : mapHas s.groups name
        · rw [if_pos hh]
          exact h
        · rw [if_neg hh]
          have hnotin : name ∉ keysOf s.groups := by
            rw [← mapHas_false_iff]
            simpa using hh
          have hkeys : keysOf
              (mapSet s.groups name (alloc s
                { files := [], subGroups := [], parentGroup := parent }).2)
              = keysOf s.groups ++ [name] := by
            rw [mapSet_of_not_mem _ hnotin, keysOf_append]
            rfl
          have hnd : (keysOf (mapSet s.groups name (alloc s
              { files := [], subGroups := [], parentGroup := parent }).2)).Nodup := by
            rw [hkeys]
            refine List.Nodup.append h (List.nodup_singleton name) ?_
            intro a ha hb
            rw [List.mem_singleton] at hb
            subst hb
            exact hnotin ha
          cases parent with
          | none => exact hnd
          | some p =>
              dsimp only
              split
          
              · exact hnd
              · split
                · exact hnd
                · exact hnd

theorem nodup_keys_foldl_addNewGroup :
    ∀ (ops : List (Option String × Option String)) (s : ProviderState),
      (keysOf s.groups).Nodup →
      (keysOf ((ops.foldl (fun st io => addNewGroup st io.1 io.2) s).groups)).Nodup := by
  intro ops
  induction ops with
  | nil => exact fun s h => h
  | cons op rest ih =>
      intro s h
      rw [List.foldl_cons]
      exact ih _ (nodup_keys_addNewGroup s op.1 op.2 h)

/-- C7: duplicate group creation is always rejected (the input box's
`validateInput` refuses an existing name, leaving the store untouched),
and along every sequence of `addNewGroup` calls from the fresh store no
two live groups share a name. -/
theorem createGroup_uniqueness :
    (∀ (s : ProviderState) (name : String) (parent : Option String),
        mapHas s.groups name = true → addNewGroup s (some name) parent = s) ∧
    (∀ ops : List (Option String × Option String),
        (keysOf ((ops.foldl (fun st io => addNewGroup st io.1 io.2)
          initState).groups)).Nodup) := by
  constructor
  · intro s name parent h
    unfold addNewGroup
    dsimp only
    by_cases he : name = ""
    · rw [if_pos he]
    · rw [if_neg he, if_pos h]
  · intro ops
    exact nodup_keys_foldl_addNewGroup ops initState (by decide)

/-- C7 witness: a second `addNewGroup("X")` right after the first is a
no-op. -/
theorem createGroup_uniqueness_witness :
    addNewGroup (addNewGroup initState (some "X") none) (some "X") none =
      addNewGroup initState (some "X") none :=
  createGroup_uniqueness.1 (addNewGroup initState (some "X") none) "X" none
    (by decide)


theorem heapGet_isSome_iff (h : List GroupObj) (r : Ref) :
    (heapGet h r).isSome ↔ r < h.length := by
  rw [heapGet]
  constructor
  · intro hs
    by_contra hlt
    rw [Nat.not_lt] at hlt
    rw [List.getElem?_eq_none hlt] at hs
    simp at hs
  · intro hlt
    rw [List.getElem?_eq_getElem hlt]
    rfl

theorem length_heapSet (h : List GroupObj) (r : Ref) (g : GroupObj) :
    (heapSet h r g).length = h.length := by
  rw [heapSet]
  exact List.length_set h r g

theorem heapGet_heapSet_self (h : List GroupObj) (r : Ref) (g : GroupObj)
    (hr : r < h.length) : heapGet (heapSet h r g) r = some g := by
  rw [heapGet, heapSet]
  simp [List.getElem?_set_self, hr]

theorem heapGet_append_length (h : List GroupObj) (g : GroupObj) :
    heapGet (h ++ [g]) h.length = some g := by
  rw [heapGet]
  exact List.getElem?_concat_length h g

theorem mapGet_append_of_not_mem {α : Type} {m : List (String × α)} {k : String}
    (v : α) (h : k ∉ keysOf m) : mapGet (m ++ [(k, v)]) k = some v := by
  induction m with
  | nil => rw [List.nil_append, mapGet, if_pos rfl]
  | cons p rest ih =>
      have h1 : ¬ p.1 = k := by
        intro he
        refine h ?_
        rw [mem_keysOf_cons]
        exact Or.inl he.symm
      have h2 : k ∉ keysOf rest := by
        intro hm
        refine h ?_
        rw [mem_keysOf_cons]
        exact Or.inr hm
      rw [List.cons_append, mapGet, if_neg h1]
      exact ih h2

theorem importStep_groups (gn : String) (stat : String → Option FileType)
    (acc : ProviderState × Nat × Nat) (p : String) :
    (importStep gn stat acc p).1.groups = acc.1.groups := by
  unfold importStep
  dsimp only
  split
  · split
    · rfl
    · split
      · rfl
      · rfl
  · rfl
  · rfl

theorem import_fold_spec (gn : String) (stat : String → Option FileType) :
    ∀ (paths : List String) (s : ProviderState) (a f : Nat) (r : Ref),
      mapGet s.groups gn = some r → (heapGet s.heap r).isSome →
      (paths.foldl (importStep gn stat) (s, a, f)).2.1 =
          a + paths.countP (fun q => decide (stat q = some FileType.file)) ∧
        (paths.foldl (importStep gn stat) (s, a, f)).2.2 =
          f + (paths.length -
            paths.countP (fun q => decide (stat q = some FileType.file))) := by
  intro paths
  induction paths with
  | nil =>
      intro s a f r hg hh
      rw [List.foldl_nil, List.countP_nil, List.length_nil]
      refine ⟨?_, ?_⟩ <;> dsimp only <;> omega
  | cons p rest ih =>
      intro s a f r hg hh
      rw [List.foldl_cons]
      have hcount : rest.countP (fun q => decide (stat q = some FileType.file)) ≤
          rest.length := List.countP_le_length _
      cases hstat : stat p with
      | none =>
              have hstep : importStep gn stat (s, a, f) p = (s, a, f + 1) := by
                unfold importStep
                dsimp only
                rw [hstat]
              rw [hstep]
              obtain ⟨h1, h2⟩ := ih s a (f + 1) r hg hh
              have hc : List.countP (fun q => decide (stat q = some FileType.file))
                  (p :: rest) =
                  List.countP (fun q => decide (stat q = some FileType.file)) rest := by
                rw [List.countP_cons]
                simp [hstat]
              rw [h1, h2, hc, List.length_cons]
              constructor
              · rfl
              · omega
      | some ft =>
          cases ft with
          | file =>
              obtain ⟨obj, hobj⟩ := Option.isSome_iff_exists.mp hh
              have hstep : importStep gn stat (s, a, f) p =
                  (setFilesAt s r obj
                    (mapSet obj.files p
                      { path := p, name := basename p, groupName := some gn }),
                   a + 1, f) := by
                unfold importStep
                dsimp only
                rw [hstat]
                dsimp only
                rw [hg]
                dsimp only
                rw [hobj]
              rw [hstep]
              have hg' : mapGet (setFilesAt s r obj
                  (mapSet obj.files p
                    { path := p, name := basename p,
                      groupName := some gn })).groups gn = some r := hg
              have hh' : (heapGet (setFilesAt s r obj
                  (mapSet obj.files p
                    { path := p, name := basename p,
                      groupName := some gn })).heap r).isSome := by
                rw [show (setFilesAt s r obj
                    (mapSet obj.files p
                      { path := p, name := basename p,
                        groupName := some gn })).heap
                  = heapSet s.heap r
                      { files := mapSet obj.files p
                          { path := p, name := basename p, groupName := some gn },
                        subGroups := obj.subGroups,
                        parentGroup := obj.parentGroup } from rfl]
                rw [heapGet_heapSet_self _ _ _
                  ((heapGet_isSome_iff s.heap r).mp hh)]
                rfl
              obtain ⟨h1, h2⟩ := ih _ (a + 1) f r hg' hh'
              have hc : List.countP (fun q => decide (stat q = some FileType.file))
                  (p :: rest) =
                  List.countP (fun q => decide (stat q = some FileType.file)) rest
                    + 1 := by
                rw [List.countP_cons]
                simp [hstat]
              rw [h1, h2, hc, List.length_cons]
              constructor
              · omega
              · omega
          | directory =>
              have hstep : importStep gn stat (s, a, f) p = (s, a, f + 1) := by
                unfold importStep
                dsimp only
                rw [hstat]
              rw [hstep]
              obtain ⟨h1, h2⟩ := ih s a (f + 1) r hg hh
              have hc : List.countP (fun q => decide (stat q = some FileType.file))
                  (p :: rest) =
                  List.countP (fun q => decide (stat q = some FileType.file)) rest := by
                rw [List.countP_cons]
                simp [hstat]
              rw [h1, h2, hc, List.length_cons]
              constructor
              · rfl
              · omega
          | symbolicLink =>
              have hstep : importStep gn stat (s, a, f) p = (s, a, f + 1) := by
                unfold importStep
                dsimp only
                rw [hstat]
              rw [hstep]
              obtain ⟨h1, h2⟩ := ih s a (f + 1) r hg hh
              have hc : List.countP (fun q => decide (stat q = some FileType.file))
                  (p :: rest) =
                  List.countP (fun q => decide (stat q = some FileType.file)) rest := by
                rw [List.countP_cons]
                simp [hstat]
              rw [h1, h2, hc, List.length_cons]
              constructor
              · rfl
              · omega
          | unknown =>
              have hstep : importStep gn stat (s, a, f) p = (s, a, f + 1) := by
                unfold importStep
                dsimp only
                rw [hstat]
              rw [hstep]
              obtain ⟨h1, h2⟩ := ih s a (f + 1) r hg hh
              have hc : List.countP (fun q => decide (stat q = some FileType.file))
                  (p :: rest) =
                  List.countP (fun q => decide (stat q = some FileType.file)) rest := by
                rw [List.countP_cons]
                simp [hstat]
              rw [h1, h2, hc, List.length_cons]
              constructor
              · rfl
              · omega

/-- C9: `addFilesFromText` parses lines (trim, drop blanks and `#`
comments), counts a candidate as added exactly when it stats as a
regular file (given the target group exists), counts everything else —
stat errors and non-file types — as failed, produces an error-level
report exactly when nothing was added and something failed, and on the
spec's scenario yields added = 2, failed = 1. -/
theorem bulk_import :
    (∀ (s : ProviderState) (gn : String) (text : String)
        (stat : String → Option FileType) (r : Ref),
        mapGet s.groups gn = some r → (heapGet s.heap r).isSome →
        (addFilesFromText s gn text stat).addedCount =
            (parsePaths text).countP
              (fun q => decide (stat q = some FileType.file)) ∧
          (addFilesFromText s gn text stat).errorCount =
            (parsePaths text).length -
              (parsePaths text).countP
                (fun q => decide (stat q = some FileType.file))) ∧
    (∀ a f : Nat, reportOf a f = some ReportLevel.error ↔ a = 0 ∧ 0 < f) ∧
    ((addFilesFromText initState "default"
        "/a.txt\n# comment\n\n/missing.txt\n/b.txt"
        (fun p => if p = "/a.txt" ∨ p = "/b.txt" then some FileType.file
          else none)).addedCount = 2 ∧
      (addFilesFromText initState "default"
        "/a.txt\n# comment\n\n/missing.txt\n/b.txt"
        (fun p => if p = "/a.txt" ∨ p = "/b.txt" then some FileType.file
          else none)).errorCount = 1) := by
  refine ⟨?_, ?_, ?_⟩
  · intro s gn text stat r hg hh
    obtain ⟨h1, h2⟩ := import_fold_spec gn stat (parsePaths text) s 0 0 r hg hh
    unfold addFilesFromText
    dsimp only
    rw [h1, h2]
    constructor
    · omega
    · omega
  · intro a f
    unfold reportOf
    by_cases h1 : 0 < a ∧ f = 0
    · rw [if_pos h1]
      constructor
      · intro hc
        exact absurd (Option.some.inj hc) (by intro hle; cases hle)
      · intro hc
        omega
    · rw [if_neg h1]
      by_cases h2 : 0 < a ∧ 0 < f
      · rw [if_pos h2]
        constructor
        · intro hc
          exact absurd (Option.some.inj hc) (by intro hle; cases hle)
        · intro hc
          omega
      · rw [if_neg h2]
        by_cases h3 : a = 0 ∧ 0 < f
        · rw [if_pos h3]
          constructor
          · intro _
            exact h3
          · intro _
            rfl
        · rw [if_neg h3]
          constructor
          · intro hc
            exact Option.noConfusion hc
          · intro hc
            exact absurd hc h3
  · exact ⟨by decide, by decide⟩

/-- C9 witness: the general count clause applied to the scenario
store and stat oracle. -/
theorem bulk_import_witness :
    (addFilesFromText initState "default"
        "/a.txt\n# comment\n\n/missing.txt\n/b.txt"
        (fun p => if p = "/a.txt" ∨ p = "/b.txt" then some FileType.file
          else none)).addedCount =
      (parsePaths "/a.txt\n# comment\n\n/missing.txt\n/b.txt").countP
        (fun q => decide ((fun p => if p = "/a.txt" ∨ p = "/b.txt"
          then some FileType.file else none) q = some FileType.file)) ∧
    (addFilesFromText initState "default"
        "/a.txt\n# comment\n\n/missing.txt\n/b.txt"
        (fun p => if p = "/a.txt" ∨ p = "/b.txt" then some FileType.file
          else none)).errorCount =
      (parsePaths "/a.txt\n# comment\n\n/missing.txt\n/b.txt").length -
        (parsePaths "/a.txt\n# comment\n\n/missing.txt\n/b.txt").countP
          (fun q => decide ((fun p => if p = "/a.txt" ∨ p = "/b.txt"
            then some FileType.file else none) q = some FileType.file)) :=
  bulk_import.1 initState "default" "/a.txt\n# comment\n\n/missing.txt\n/b.txt"
    (fun p => if p = "/a.txt" ∨ p = "/b.txt" then some FileType.file else none)
    0 (by decide) (by decide)

theorem groups_dropFromGroup (s : ProviderState) (gn : String) (p : String) :
    (dropFromGroup s gn p).groups = s.groups := by
  unfold dropFromGroup
  split
  · rfl
  · split
    · rfl
    · rfl

theorem heap_length_dropFromGroup (s : ProviderState) (gn : String) (p : String) :
    (dropFromGroup s gn p).heap.length = s.heap.length := by
  unfold dropFromGroup
  split
  · rfl
  · split
    · rfl
    · rw [show (setFilesAt _ _ _ _).heap = heapSet s.heap _ _ from rfl]
      exact length_heapSet _ _ _

theorem ensure_put_fresh (s : ProviderState) (t : String) (item : FavoriteItem)
    (hhas : mapHas s.groups t = false) :
    mapGet (putInGroup (ensureGroup s t) t item).groups t = some s.heap.length ∧
      heapGet (putInGroup (ensureGroup s t) t item).heap s.heap.length =
        some { files := [(item.path, item)], subGroups := [],
               parentGroup := none } := by
  have hnotin : t ∉ keysOf s.groups := (mapHas_false_iff _ _).mp hhas
  have hens : ensureGroup s t =
      { s with heap := s.heap ++ [emptyGroup],
               groups := s.groups ++ [(t, s.heap.length)] } := by
    unfold ensureGroup
    rw [if_neg (by rw [hhas]; exact Bool.noConfusion)]
    dsimp only [alloc]
    rw [mapSet_of_not_mem _ hnotin]
  have hget : mapGet (ensureGroup s t).groups t = some s.heap.length := by
    rw [hens]
    exact mapGet_append_of_not_mem _ hnotin
  have hheap : heapGet (ensureGroup s t).heap s.heap.length = some emptyGroup := by
    rw [hens]
    exact heapGet_append_length _ _
  unfold putInGroup
  rw [hget]
  dsimp only
  rw [hheap]
  dsimp only
  constructor
  · rw [show (setFilesAt (ensureGroup s t) s.heap.length emptyGroup
        (mapSet emptyGroup.files item.path item)).groups
      = (ensureGroup s t).groups from rfl]
    exact hget
  · rw [show (setFilesAt (ensureGroup s t) s.heap.length emptyGroup
        (mapSet emptyGroup.files item.path item)).heap
      = heapSet (ensureGroup s t).heap s.heap.length
          { files := mapSet emptyGroup.files item.path item,
            subGroups := emptyGroup.subGroups,
            parentGroup := emptyGroup.parentGroup } from rfl]
    have hlen : s.heap.length < (ensureGroup s t).heap.length := by
      rw [hens]
      rw [List.length_append]
      simp
    rw [heapGet_heapSet_self _ _ _ hlen]
    rfl

/-- C10: when `moveToGroup`, `copyToGroup`, or `handleDrop` resolves a
target group name that is not in the store, the operation silently
creates it as a fresh empty top-level group (empty files, empty
subGroups, `parentGroup: null`) and inserts the item, whose
`groupName` is set to the target. -/
theorem missing_target_group_created :
    (∀ (s : ProviderState) (item : FavoriteItem) (t : String),
        t ≠ DEFAULT_GROUP → mapHas s.groups t = false →
        mapGet (moveToGroupItem s item t).groups t = some s.heap.length ∧
          heapGet (moveToGroupItem s item t).heap s.heap.length =
            some { files := [(item.path,
                     { path := item.path, name := item.name,
                       groupName := some t })],
                   subGroups := [], parentGroup := none }) ∧
    (∀ (s : ProviderState) (item : FavoriteItem) (t : String),
        t ≠ "(Default Group)" → mapHas s.groups t = false →
        mapGet (copyToGroupItem s item t).groups t = some s.heap.length ∧
          heapGet (copyToGroupItem s item t).heap s.heap.length =
            some { files := [(item.path,
                     { path := item.path, name := item.name,
                       groupName := some t })],
                   subGroups := [], parentGroup := none }) ∧
    (∀ (s : ProviderState) (src : DropSource) (t : String) (isCopy : Bool),
        src.type = some "file" → mapHas s.groups t = false →
        mapGet (handleDropSource s t isCopy src).groups t = some s.heap.length ∧
          heapGet (handleDropSource s t isCopy src).heap s.heap.length =
            some { files := [(src.path,
                     { path := src.path, name := src.name,
                       groupName := some t })],
                   subGroups := [], parentGroup := none }) := by
  have key : ∀ (s s1 : ProviderState) (t : String) (item : FavoriteItem),
      mapHas s.groups t = false →
      s1.groups = s.groups → s1.heap.length = s.heap.length →
      mapGet (putInGroup (ensureGroup s1 t) t item).groups t
          = some s.heap.length ∧
        heapGet (putInGroup (ensureGroup s1 t) t item).heap s.heap.length =
          some { files := [(item.path, item)], subGroups := [],
                 parentGroup := none } := by
    intro s s1 t item hhas hg hl
    have hhas1 : mapHas s1.groups t = false := by rw [hg]; exact hhas
    obtain ⟨h1, h2⟩ := ensure_put_fresh s1 t item hhas1
    rw [hl] at h1 h2
    exact ⟨h1, h2⟩
  refine ⟨?_, ?_, ?_⟩
  · intro s item t ht hhas
    unfold moveToGroupItem
    rw [if_neg ht]
    dsimp only
    cases hgn : item.groupName with
    | some gn =>
        exact key s (dropFromGroup s gn item.path) t _ hhas
          (groups_dropFromGroup s gn item.path)
          (heap_length_dropFromGroup s gn item.path)
    | none =>
        exact key s (dropFromGroup s DEFAULT_GROUP item.path) t _ hhas
          (groups_dropFromGroup s DEFAULT_GROUP item.path)
          (heap_length_dropFromGroup s DEFAULT_GROUP item.path)
  · intro s item t ht hhas
    unfold copyToGroupItem
    rw [if_neg ht]
    dsimp only
    exact key s s t _ hhas rfl rfl
  · intro s src t isCopy hty hhas
    unfold handleDropSource
    rw [if_pos hty]
    dsimp only
    cases isCopy with
    | true => exact key s s t _ hhas rfl rfl
    | false =>
        cases hgn : src.groupName with
        | some gn =>
            exact key s (dropFromGroup s gn src.path) t _ hhas
              (groups_dropFromGroup s gn src.path)
              (heap_length_dropFromGroup s gn src.path)
        | none =>
            exact key s (dropFromGroup s DEFAULT_GROUP src.path) t _ hhas
              (groups_dropFromGroup s DEFAULT_GROUP src.path)
              (heap_length_dropFromGroup s DEFAULT_GROUP src.path)

/-- C10 witness: moving, copying, and dropping a file into the missing
group `G` of the fresh store each create `G` as an empty top-level
group holding exactly that file. -/
theorem missing_target_group_created_witness :
    (mapGet (moveToGroupItem initState ⟨"/x", "x", none⟩ "G").groups "G"
        = some initState.heap.length ∧
      heapGet (moveToGroupItem initState ⟨"/x", "x", none⟩ "G").heap
          initState.heap.length =
        some { files := [("/x",
                 { path := "/x", name := "x", groupName := some "G" })],
               subGroups := [], parentGroup := none }) ∧
    (mapGet (copyToGroupItem initState ⟨"/x", "x", none⟩ "G").groups "G"
        = some initState.heap.length ∧
      heapGet (copyToGroupItem initState ⟨"/x", "x", none⟩ "G").heap
          initState.heap.length =
        some { files := [("/x",
                 { path := "/x", name := "x", groupName := some "G" })],
               subGroups := [], parentGroup := none }) ∧
    (mapGet (handleDropSource initState "G" false
          ⟨"/x", "x", none, some "file"⟩).groups "G"
        = some initState.heap.length ∧
      heapGet (handleDropSource initState "G" false
            ⟨"/x", "x", none, some "file"⟩).heap initState.heap.length =
        some { files := [("/x",
                 { path := "/x", name := "x", groupName := some "G" })],
               subGroups := [], parentGroup := none }) :=
  ⟨missing_target_group_created.1 initState ⟨"/x", "x", none⟩ "G"
      (by decide) (by decide),
    missing_target_group_created.2.1 initState ⟨"/x", "x", none⟩ "G"
      (by decide) (by decide),
    missing_target_group_created.2.2 initState ⟨"/x", "x", none, some "file"⟩
      "G" false rfl (by decide)⟩


theorem enumerated_mono {dir : String} {entries entries' : List FsEntry}
    {p : String} (hsub : ∀ e ∈ entries, e ∈ entries')
    (h : EnumeratedFile dir entries p) : EnumeratedFile dir entries' p := by
  cases h with
  | here _ _ n hdot hmem =>
      exact EnumeratedFile.here _ _ n hdot (hsub _ hmem)
  | deeper _ _ n sub _ hdot hmem hrec =>
      exact EnumeratedFile.deeper _ _ n sub _ hdot (hsub _ hmem) hrec

theorem fwd_getAll :
    ∀ (dirPath : String) (entries : List FsEntry) (p : String),
      p ∈ getAllFilesInDirectory dirPath entries →
        EnumeratedFile dirPath entries p := by
  intro dirPath entries
  induction dirPath, entries using getAllFilesInDirectory.induct with
  | case1 d =>
      intro p hp
      rw [getAllFilesInDirectory.eq_def] at hp
      dsimp only at hp
      exact absurd hp (List.not_mem_nil _)
  | case2 d e rest hdot ih =>
      intro p hp
      rw [getAllFilesInDirectory.eq_def] at hp
      dsimp only at hp
      rw [if_pos hdot] at hp
      exact enumerated_mono (fun x hx => List.mem_cons_of_mem _ hx) (ih p hp)
  | case3 d rest n hnot ih =>
      intro p hp
      have hdot : startsWithChar n '.' = false := by
        revert hnot
        dsimp only [FsEntry.name]
        cases startsWithChar n '.' <;> simp
      rw [getAllFilesInDirectory.eq_def] at hp
      dsimp only at hp
      rw [if_neg hnot] at hp
      rcases List.mem_cons.mp hp with hph | hpt
      · subst hph
        exact EnumeratedFile.here d _ n hdot (List.mem_cons_self _ _)
      · exact enumerated_mono (fun x hx => List.mem_cons_of_mem _ hx) (ih p hpt)
  | case4 d rest n sub hnot ihsub ihrest =>
      intro p hp
      have hdot : startsWithChar n '.' = false := by
        revert hnot
        dsimp only [FsEntry.name]
        cases startsWithChar n '.' <;> simp
      rw [getAllFilesInDirectory.eq_def] at hp
      dsimp only at hp
      rw [if_neg hnot] at hp
      rcases List.mem_append.mp hp with hps | hpr
      · exact EnumeratedFile.deeper d _ n sub p hdot (List.mem_cons_self _ _)
          (ihsub p hps)
      · exact enumerated_mono (fun x hx => List.mem_cons_of_mem _ hx)
          (ihrest p hpr)

theorem getAll_mem_of_file {n : String}
    (hdot : startsWithChar n '.' = false) :
    ∀ (entries : List FsEntry) (dirPath : String),
      FsEntry.file n ∈ entries →
      (dirPath ++ "/" ++ n) ∈ getAllFilesInDirectory dirPath entries := by
  intro entries
  induction entries with
  | nil =>
      intro dirPath hmem
      exact absurd hmem (List.not_mem_nil _)
  | cons e rest ih =>
      intro dirPath hmem
      rw [getAllFilesInDirectory.eq_def]
      dsimp only
      rcases List.mem_cons.mp hmem with he | hm
      · subst he
        dsimp only [FsEntry.name]
        rw [hdot]
        simp only [Bool.false_eq_true, if_false]
        exact List.mem_cons_self _ _
      · by_cases hd : startsWithChar (FsEntry.name e) '.' = true
        · rw [if_pos hd]
          exact ih dirPath hm
        · rw [if_neg hd]
          cases e with
          | file m =>
              dsimp only
              exact List.mem_cons_of_mem _ (ih dirPath hm)
          | dir m sub =>
              dsimp only
              exact List.mem_append_right _ (ih dirPath hm)

theorem getAll_mem_of_dir {n : String} {sub : List FsEntry} {p : String}
    (hdot : startsWithChar n '.' = false) :
    ∀ (entries : List FsEntry) (dirPath : String),
      FsEntry.dir n sub ∈ entries →
      p ∈ getAllFilesInDirectory (dirPath ++ "/" ++ n) sub →
      p ∈ getAllFilesInDirectory dirPath entries := by
  intro entries
  induction entries with
  | nil =>
      intro dirPath hmem _
      exact absurd hmem (List.not_mem_nil _)
  | cons e rest ih =>
      intro dirPath hmem hp
      rw [getAllFilesInDirectory.eq_def]
      dsimp only
      rcases List.mem_cons.mp hmem with he | hm
      · subst he
        dsimp only [FsEntry.name]
        rw [hdot]
        simp only [Bool.false_eq_true, if_false]
        exact List.mem_append_left _ hp
      · by_cases hd : startsWithChar (FsEntry.name e) '.' = true
        · rw [if_pos hd]
          exact ih dirPath hm hp
        · rw [if_neg hd]
          cases e with
          | file m =>
              dsimp only
              exact List.mem_cons_of_mem _ (ih dirPath hm hp)
          | dir m msub =>
              dsimp only
              exact List.mem_append_right _ (ih dirPath hm hp)

/-- C8: directory favoriting enumerates exactly the files reachable
without any path component starting with `'.'` (characterized by
`EnumeratedFile`), and on the scenario directory — `a.txt`,
`sub/b.txt`, `.hidden/c.txt` — adds exactly `/d/a.txt` and
`/d/sub/b.txt` to the target (default) group. -/
theorem directory_favoriting :
    (∀ (dirPath : String) (entries : List FsEntry) (p : String),
        p ∈ getAllFilesInDirectory dirPath entries ↔
          EnumeratedFile dirPath entries p) ∧
    groupMapping (addFavorite initState "/d"
        (StatResult.dir [FsEntry.file "a.txt",
          FsEntry.dir "sub" [FsEntry.file "b.txt"],
          FsEntry.dir ".hidden" [FsEntry.file "c.txt"]])) =
      [("default",
        some { files := [("/d/a.txt",
                 { path := "/d/a.txt", name := "a.txt", groupName := none }),
                ("/d/sub/b.txt",
                 { path := "/d/sub/b.txt", name := "b.txt",
                   groupName := none })],
               subGroups := [], parentGroup := none })] := by
  constructor
  · intro dirPath entries p
    constructor
    · exact fwd_getAll dirPath entries p
    · intro h
      induction h with
      | here d es n hdot hmem => exact getAll_mem_of_file hdot es d hmem
      | deeper d es n sub q hdot hmem hrec ih =>
          exact getAll_mem_of_dir hdot es d hmem ih
  · simp [addFavorite, getAllFilesInDirectory, FsEntry.name, startsWithChar,
      insertFavorite, saveToHistory, historyPush, mapGet, mapSet, mapHas,
      heapGet, heapSet, initState, DEFAULT_GROUP, maxHistorySize, emptyGroup,
      basename, splitOnChar, setFilesAt, groupMapping]

/-- C8 witness: the characterization applied to the scenario listing
shows `/d/sub/b.txt` is enumerated. -/
theorem directory_favoriting_witness :
    EnumeratedFile "/d"
      [FsEntry.file "a.txt", FsEntry.dir "sub" [FsEntry.file "b.txt"],
        FsEntry.dir ".hidden" [FsEntry.file "c.txt"]] "/d/sub/b.txt" :=
  (directory_favoriting.1 "/d"
      [FsEntry.file "a.txt", FsEntry.dir "sub" [FsEntry.file "b.txt"],
        FsEntry.dir ".hidden" [FsEntry.file "c.txt"]] "/d/sub/b.txt").mp
    (by simp [getAllFilesInDirectory, FsEntry.name, startsWithChar])


theorem mem_mapSet {α : Type} {m : List (String × α)} {k : String} {v : α}
    {q : String × α} (h : q ∈ mapSet m k v) : q = (k, v) ∨ q ∈ m := by
  induction m with
  | nil =>
      rw [mapSet] at h
      rcases List.mem_singleton.mp h with rfl
      exact Or.inl rfl
  | cons p rest ih =>
      rw [mapSet] at h
      by_cases hp : p.1 = k
      · rw [if_pos hp] at h
        rcases List.mem_cons.mp h with he | hm
        · exact Or.inl he
        · exact Or.inr (List.mem_cons_of_mem _ hm)
      · rw [if_neg hp] at h
        rcases List.mem_cons.mp h with he | hm
        · exact Or.inr (by rw [he]; exact List.mem_cons_self _ _)
        · rcases ih hm with h1 | h2
          · exact Or.inl h1
          · exact Or.inr (List.mem_cons_of_mem _ h2)

theorem mem_of_mem_mapDelete {α : Type} {m : List (String × α)} {k : String}
    {q : String × α} (h : q ∈ mapDelete m k) : q ∈ m :=
  (mapDelete_sublist m k).subset h

theorem ref_unique {groups : List (String × Ref)}
    (hnd : (groups.map (fun q => q.2)).Nodup)
    {a b : String} {r : Ref} (ha : (a, r) ∈ groups) (hb : (b, r) ∈ groups) :
    a = b := by
  induction groups with
  | nil => cases ha
  | cons p rest ih =>
      rw [List.map_cons, List.nodup_cons] at hnd
      rcases List.mem_cons.mp ha with hae | ham
      · rcases List.mem_cons.mp hb with hbe | hbm
        · rw [← hae] at hbe
          exact (Prod.mk.injEq _ _ _ _ ▸ hbe.symm).1
        · exfalso
          refine hnd.1 ?_
          have : p.2 = r := by rw [← hae]
          rw [this]
          exact List.mem_map.mpr ⟨(b, r), hbm, rfl⟩
      · rcases List.mem_cons.mp hb with hbe | hbm
        · exfalso
          refine hnd.1 ?_
          have : p.2 = r := by rw [← hbe]
          rw [this]
          exact List.mem_map.mpr ⟨(a, r), ham, rfl⟩
        · exact ih hnd.2 ham hbm

theorem heapGet_heapSet_cases (h : List GroupObj) (r r' : Ref) (g : GroupObj) :
    heapGet (heapSet h r g) r' =
      if r' = r ∧ r < h.length then some g else heapGet h r' := by
  by_cases hc : r' = r ∧ r < h.length
  · rw [if_pos hc, hc.1]
    exact heapGet_heapSet_self h r g hc.2
  · rw [if_neg hc]
    by_cases he : r' = r
    · have hge : ¬ r < h.length := fun hl => hc ⟨he, hl⟩
      rw [he, heapGet, heapSet]
      rw [List.set_eq_of_length_le (Nat.le_of_not_lt hge)]
      rfl
    · rw [heapGet, heapSet]
      rw [List.getElem?_set_ne (fun hrr => he (hrr.symm))]
      rfl

theorem heapGet_append_left (h : List GroupObj) (l : List GroupObj) (r : Ref)
    (hr : r < h.length) : heapGet (h ++ l) r = heapGet h r := by
  rw [heapGet, heapGet]
  exact List.getElem?_append_left hr

theorem inv_of_same (s s' : ProviderState) (hh : s'.heap = s.heap)
    (hg : s'.groups = s.groups) (hInv : Inv s) : Inv s' := by
  rw [Inv, hh, hg]
  exact hInv

theorem inv_heapUpdate {s : ProviderState} {g : String} {r : Ref}
    (obj' : GroupObj) (hInv : Inv s) (hg : mapGet s.groups g = some r)
    (hfiles : ∀ e ∈ obj'.files, ∀ n, e.2.groupName = some n → n = g) :
    Inv { s with heap := heapSet s.heap r obj' } := by
  obtain ⟨hval, hrnd, hknd, hden⟩ := hInv
  have hmem : (g, r) ∈ s.groups := mem_of_mapGet_eq_some hg
  have hr : r < s.heap.length := hval (g, r) hmem
  refine ⟨?_, hrnd, hknd, ?_⟩
  · intro q hq
    rw [length_heapSet]
    exact hval q hq
  · intro q hq obj2 hobj2 e he n hn
    rw [heapGet_heapSet_cases] at hobj2
    by_cases hc : q.2 = r ∧ r < s.heap.length
    · rw [if_pos hc] at hobj2
      obtain rfl := Option.some.inj hobj2
      have hq1 : g = q.1 := by
        refine ref_unique hrnd hmem ?_
        rw [← hc.1]
        exact hq
      rw [← hq1]
      exact hfiles e he n hn
    · rw [if_neg hc] at hobj2
      exact hden q hq obj2 hobj2 e he n hn

theorem inv_groupsDelete {s : ProviderState} (k : String) (hInv : Inv s) :
    Inv { s with groups := mapDelete s.groups k } := by
  obtain ⟨hval, hrnd, hknd, hden⟩ := hInv
  refine ⟨?_, ?_, ?_, ?_⟩
  · intro q hq
    exact hval q (mem_of_mem_mapDelete hq)
  · exact List.Nodup.sublist (List.Sublist.map _ (mapDelete_sublist _ _)) hrnd
  · exact List.Nodup.sublist (keysOf_mapDelete_sublist _ _) hknd
  · intro q hq obj hobj e he n hn
    exact hden q (mem_of_mem_mapDelete hq) obj hobj e he n hn

theorem inv_allocRegister {s : ProviderState} {t : String} (g0 : GroupObj)
    (hInv : Inv s) (hnotin : t ∉ keysOf s.groups)
    (hfiles : ∀ e ∈ g0.files, ∀ n, e.2.groupName = some n → n = t) :
    Inv { s with heap := s.heap ++ [g0],
                 groups := s.groups ++ [(t, s.heap.length)] } := by
  obtain ⟨hval, hrnd, hknd, hden⟩ := hInv
  refine ⟨?_, ?_, ?_, ?_⟩
  · intro q hq
    rw [List.length_append]
    rcases List.mem_append.mp hq with hold | hnew
    · exact Nat.lt_succ_of_lt (hval q hold)
    · rcases List.mem_singleton.mp hnew with rfl
      simp
  · rw [List.map_append]
    refine List.Nodup.append hrnd (by simp) ?_
    intro a ha hb
    simp only [List.map_cons, List.map_nil, List.mem_singleton] at hb
    subst hb
    rcases List.mem_map.mp ha with ⟨q, hq, hq2⟩
    have h1 : q.2 < s.heap.length := hval q hq
    have h2 : q.2 = s.heap.length := hq2
    exact absurd h2 (Nat.ne_of_lt h1)
  · rw [keysOf_append]
    refine List.Nodup.append hknd (by simp [keysOf]) ?_
    intro a ha hb
    simp only [keysOf, List.map_cons, List.map_nil, List.mem_singleton] at hb
    subst hb
    exact hnotin ha
  · intro q hq obj hobj e he n hn
    rcases List.mem_append.mp hq with hold | hnew
    · rw [heapGet_append_left _ _ _ (hval q hold)] at hobj
      exact hden q hold obj hobj e he n hn
    · rcases List.mem_singleton.mp hnew with rfl
      rw [heapGet_append_length] at hobj
      obtain rfl := Option.some.inj hobj
      exact hfiles e he n hn

theorem inv_heapSet_emptyFiles {s : ProviderState} (r : Ref)
    (sub : List String) (par : Option String) (hInv : Inv s) :
    Inv { s with
          heap := heapSet s.heap r
                    { files := [], subGroups := sub, parentGroup := par } } := by
  obtain ⟨hval, hrnd, hknd, hden⟩ := hInv
  refine ⟨?_, hrnd, hknd, ?_⟩
  · intro q hq
    rw [length_heapSet]
    exact hval q hq
  · intro q hq obj hobj e he n hn
    rw [heapGet_heapSet_cases] at hobj
    by_cases hc : q.2 = r ∧ r < s.heap.length
    · rw [if_pos hc] at hobj
      obtain rfl := Option.some.inj hobj
      cases he
    · rw [if_neg hc] at hobj
      exact hden q hq obj hobj e he n hn

theorem inv_saveToHistory (s : ProviderState) (ty : String) (hInv : Inv s) :
    Inv (saveToHistory s ty) :=
  inv_of_same s _ rfl rfl hInv

theorem inv_insertFavorite (s : ProviderState) (p : String) (hInv : Inv s) :
    Inv (insertFavorite s p) := by
  unfold insertFavorite
  dsimp only
  split
  · exact hInv
  · rename_i r heq
    split
    · exact hInv
    · rename_i obj hobj
      unfold setFilesAt
      dsimp only
      refine inv_heapUpdate _ hInv heq ?_
      intro e he n hn
      rcases mem_mapSet he with he2 | hmem
      · rw [he2] at hn
        simp at hn
      · obtain ⟨hval, hrnd, hknd, hden⟩ := hInv
        exact hden _ (mem_of_mapGet_eq_some heq) obj hobj e hmem n hn

theorem inv_foldl_insertFavorite (ps : List String) (s : ProviderState)
    (hInv : Inv s) : Inv (ps.foldl insertFavorite s) := by
  induction ps generalizing s with
  | nil => exact hInv
  | cons p rest ih =>
      rw [List.foldl_cons]
      exact ih _ (inv_insertFavorite s p hInv)

theorem inv_addFavorite (s : ProviderState) (p : String) (st : StatResult)
    (hInv : Inv s) : Inv (addFavorite s p st) := by
  unfold addFavorite
  have h1 := inv_saveToHistory s "add" hInv
  cases st with
  | err => exact h1
  | file => exact inv_insertFavorite _ p h1
  | dir entries => exact inv_foldl_insertFavorite _ _ h1

theorem inv_removeFavorite (s : ProviderState) (item : FavoriteItem)
    (hInv : Inv s) : Inv (removeFavorite s item) := by
  unfold removeFavorite
  have h1 := inv_saveToHistory s "remove" hInv
  dsimp only
  cases item.groupName with
  | some gn =>
      dsimp only
      split
      · exact h1
      · rename_i r heq
        split
        · exact h1
        · rename_i obj hobj
          have h2 : Inv (setFilesAt (saveToHistory s "remove") r obj
              (mapDelete obj.files item.path)) := by
            unfold setFilesAt
            dsimp only
            refine inv_heapUpdate _ h1 heq ?_
            intro e he n hn
            obtain ⟨hval, hrnd, hknd, hden⟩ := h1
            exact hden _ (mem_of_mapGet_eq_some heq) obj hobj e
              (mem_of_mem_mapDelete he) n hn
          split
          · exact inv_groupsDelete gn h2
          · exact h2
  | none =>
      dsimp only
      split
      · exact h1
      · rename_i r heq
        split
        · exact h1
        · rename_i obj hobj
          unfold setFilesAt
          dsimp only
          refine inv_heapUpdate _ h1 heq ?_
          intro e he n hn
          obtain ⟨hval, hrnd, hknd, hden⟩ := h1
          exact hden _ (mem_of_mapGet_eq_some heq) obj hobj e
            (mem_of_mem_mapDelete he) n hn

theorem inv_dropFromGroup (s : ProviderState) (gn p : String) (hInv : Inv s) :
    Inv (dropFromGroup s gn p) := by
  unfold dropFromGroup
  split
  · exact hInv
  · rename_i r heq
    split
    · exact hInv
    · rename_i obj hobj
      unfold setFilesAt
      dsimp only
      refine inv_heapUpdate _ hInv heq ?_
      intro e he n hn
      obtain ⟨hval, hrnd, hknd, hden⟩ := hInv
      exact hden _ (mem_of_mapGet_eq_some heq) obj hobj e
        (mem_of_mem_mapDelete he) n hn

theorem inv_putInGroup (s : ProviderState) (gn : String) (item : FavoriteItem)
    (hitem : ∀ n, item.groupName = some n → n = gn) (hInv : Inv s) :
    Inv (putInGroup s gn item) := by
  unfold putInGroup
  split
  · exact hInv
  · rename_i r heq
    split
    · exact hInv
    · rename_i obj hobj
      unfold setFilesAt
      dsimp only
      refine inv_heapUpdate _ hInv heq ?_
      intro e he n hn
      rcases mem_mapSet he with he2 | hmem
      · rw [he2] at hn
        exact hitem n hn
      · obtain ⟨hval, hrnd, hknd, hden⟩ := hInv
        exact hden _ (mem_of_mapGet_eq_some heq) obj hobj e hmem n hn

theorem inv_ensureGroup (s : ProviderState) (t : String) (hInv : Inv s) :
    Inv (ensureGroup s t) := by
  unfold ensureGroup
  split
  · exact hInv
  · rename_i hne
    dsimp only [alloc]
    have hnotin : t ∉ keysOf s.groups := by
      rw [← mapHas_false_iff]
      simpa using hne
    rw [mapSet_of_not_mem _ (by
      rw [show ({ s with heap := s.heap ++ [emptyGroup] } :
          ProviderState).groups = s.groups from rfl]
      exact hnotin)]
    exact inv_allocRegister emptyGroup hInv hnotin (by intro e he; cases he)

theorem inv_addToGroup (s : ProviderState) (p gn : String) (hInv : Inv s) :
    Inv (addToGroup s p gn) := by
  unfold addToGroup
  dsimp only
  have h1 := inv_ensureGroup s gn hInv
  split
  · exact h1
  · rename_i r heq
    split
    · exact h1
    · rename_i obj hobj
      unfold setFilesAt
      dsimp only
      refine inv_heapUpdate _ h1 heq ?_
      intro e he n hn
      rcases mem_mapSet he with he2 | hmem
      · rw [he2] at hn
        simp only at hn
        exact (Option.some.inj hn).symm
      · obtain ⟨hval, hrnd, hknd, hden⟩ := h1
        exact hden _ (mem_of_mapGet_eq_some heq) obj hobj e hmem n hn

theorem mapDelete_append_singleton {α : Type} {m : List (String × α)}
    {p : String × α} {k : String} (h : p.1 ≠ k) :
    mapDelete (m ++ [p]) k = mapDelete m k ++ [p] := by
  induction m with
  | nil =>
      simp only [List.nil_append, mapDelete, if_neg h]
  | cons q rest ih =>
      by_cases hq : q.1 = k
      · rw [List.cons_append, mapDelete, if_pos hq, mapDelete, if_pos hq]
      · rw [List.cons_append, mapDelete, if_neg hq, mapDelete, if_neg hq,
          List.cons_append, ih]

theorem key_ne_of_mem_mapDelete {α : Type} {m : List (String × α)} {k : String}
    {q : String × α} (hnd : (keysOf m).Nodup) (h : q ∈ mapDelete m k) :
    q.1 ≠ k := by
  induction m with
  | nil => cases h
  | cons p rest ih =>
      rw [keysOf, List.map_cons, List.nodup_cons] at hnd
      by_cases hp : p.1 = k
      · rw [mapDelete, if_pos hp] at h
        intro he
        refine hnd.1 ?_
        rw [hp, ← he]
        exact List.mem_map.mpr ⟨q, h, rfl⟩
      · rw [mapDelete, if_neg hp] at h
        rcases List.mem_cons.mp h with he | hm
        · rw [he]
          exact hp
        · exact ih hnd.2 hm

theorem keysOf_subset_of_mapDelete {α : Type} (m : List (String × α))
    (k : String) : ∀ x ∈ keysOf (mapDelete m k), x ∈ keysOf m :=
  fun _ hx => (List.Sublist.map _ (mapDelete_sublist m k)).subset hx

theorem inv_rename_core (s : ProviderState) (oldName newName : String)
    (r : Ref) (heap' : List GroupObj) (hInv : Inv s)
    (heq : mapGet s.groups oldName = some r)
    (hnotin : newName ∉ keysOf s.groups)
    (hlen : heap'.length = s.heap.length)
    (hagree : ∀ r', r' ≠ r → heapGet heap' r' = heapGet s.heap r')
    (hnew : ∀ obj, heapGet heap' r = some obj →
        ∀ e ∈ obj.files, ∀ n, e.2.groupName = some n → n = newName) :
    Inv { s with groups := mapDelete (s.groups ++ [(newName, r)]) oldName,
                 heap := heap' } := by
  obtain ⟨hval, hrnd, hknd, hden⟩ := hInv
  have hold_mem : (oldName, r) ∈ s.groups := mem_of_mapGet_eq_some heq
  have hne : newName ≠ oldName := by
    intro he
    refine hnotin ?_
    rw [he]
    exact List.mem_map.mpr ⟨(oldName, r), hold_mem, rfl⟩
  have hsplit : mapDelete (s.groups ++ [(newName, r)]) oldName =
      mapDelete s.groups oldName ++ [(newName, r)] :=
    mapDelete_append_singleton hne
  rw [hsplit]
  have hmemD : ∀ q ∈ mapDelete s.groups oldName, q.2 ≠ r := by
    intro q hq hq2
    have hq1 : q.1 = oldName := by
      refine ref_unique hrnd ?_ hold_mem
      rw [← hq2]
      exact mem_of_mem_mapDelete hq
    exact key_ne_of_mem_mapDelete hknd hq hq1
  refine ⟨?_, ?_, ?_, ?_⟩
  · intro q hq
    rw [hlen]
    rcases List.mem_append.mp hq with hd | hn
    · exact hval q (mem_of_mem_mapDelete hd)
    · rcases List.mem_singleton.mp hn with rfl
      exact hval (oldName, r) hold_mem
  · rw [List.map_append]
    refine List.Nodup.append
      (List.Nodup.sublist (List.Sublist.map _ (mapDelete_sublist _ _)) hrnd)
      (by simp) ?_
    intro a ha hb
    simp only [List.map_cons, List.map_nil, List.mem_singleton] at hb
    subst hb
    rcases List.mem_map.mp ha with ⟨q, hq, hq2⟩
    exact hmemD q hq hq2
  · rw [keysOf_append]
    refine List.Nodup.append
      (List.Nodup.sublist (keysOf_mapDelete_sublist _ _) hknd)
      (by simp [keysOf]) ?_
    intro a ha hb
    simp only [keysOf, List.map_cons, List.map_nil, List.mem_singleton] at hb
    subst hb
    exact hnotin (keysOf_subset_of_mapDelete _ _ _ ha)
  · intro q hq obj hobj e he n hn
    rcases List.mem_append.mp hq with hd | hnw
    · rw [hagree q.2 (hmemD q hd)] at hobj
      exact hden q (mem_of_mem_mapDelete hd) obj hobj e he n hn
    · rcases List.mem_singleton.mp hnw with rfl
      exact hnew obj hobj e he n hn

theorem inv_renameGroup (s : ProviderState) (oldName : String)
    (input : Option String) (hInv : Inv s) :
    Inv (renameGroup s oldName input) := by
  unfold renameGroup
  split
  · exact hInv
  · cases input with
    | none => exact hInv
    | some newName =>
        dsimp only
        split
        · exact hInv
        · split
          · exact hInv
          · split
            · exact hInv
            · rename_i hkeep hne2
              split
              · exact hInv
              · rename_i r heq
                have hhasF : mapHas s.groups newName = false := by
                  cases hh : mapHas s.groups newName with
                  | false => rfl
                  | true => exact absurd ⟨hh, hne2⟩ hkeep
                have hnotin : newName ∉ keysOf s.groups :=
                  (mapHas_false_iff _ _).mp hhasF
                rw [mapSet_of_not_mem _ hnotin]
                split
                · rename_i hnone
                  refine inv_rename_core s oldName newName r s.heap hInv heq
                    hnotin rfl (fun _ _ => rfl) ?_
                  intro obj hobj
                  rw [hnone] at hobj
                  cases hobj
                · rename_i obj hobj
                  have hr : r < s.heap.length := by
                    obtain ⟨hval, _, _, _⟩ := hInv
                    exact hval _ (mem_of_mapGet_eq_some heq)
                  refine inv_rename_core s oldName newName r _ hInv heq
                    hnotin (length_heapSet _ _ _) ?_ ?_
                  · intro r' hr'
                    rw [heapGet_heapSet_cases, if_neg (fun hc => hr' hc.1)]
                  · intro obj2 hobj2 e he n hn
                    rw [heapGet_heapSet_self _ _ _ hr] at hobj2
                    obtain rfl := Option.some.inj hobj2
                    rcases List.mem_map.mp he with ⟨q, hq, hq2⟩
                    rw [← hq2] at hn
                    simp only at hn
                    exact (Option.some.inj hn).symm

theorem ginv_mapDelete {heap : List GroupObj} {groups : List (String × Ref)}
    (k : String) (h : GInv heap groups) : GInv heap (mapDelete groups k) := by
  obtain ⟨hval, hrnd, hknd, hden⟩ := h
  refine ⟨?_, ?_, ?_, ?_⟩
  · intro q hq
    exact hval q (mem_of_mem_mapDelete hq)
  · exact List.Nodup.sublist (List.Sublist.map _ (mapDelete_sublist _ _)) hrnd
  · exact List.Nodup.sublist (keysOf_mapDelete_sublist _ _) hknd
  · intro q hq obj hobj e he n hn
    exact hden q (mem_of_mem_mapDelete hq) obj hobj e he n hn

theorem ginv_delSubs :
    ∀ (fuel : Nat) (names : List String) (heap : List GroupObj)
      (groups : List (String × Ref)), GInv heap groups →
      GInv heap (delSubs heap fuel groups names) := by
  intro fuel
  induction fuel with
  | zero =>
      intro names
      induction names with
      | nil =>
          intro heap groups h
          rw [delSubs.eq_def]
          exact h
      | cons n rest ihn =>
          intro heap groups h
          rw [delSubs.eq_def]
          dsimp only
          split
          · exact ihn heap groups h
          · exact h
  | succ fuel' ihf =>
      intro names
      induction names with
      | nil =>
          intro heap groups h
          rw [delSubs.eq_def]
          exact h
      | cons n rest ihn =>
          intro heap groups h
          rw [delSubs.eq_def]
          dsimp only
          split
          · exact ihn heap groups h
          · rename_i r heq
            exact ihn heap _ (ginv_mapDelete n (ihf _ heap groups h))

theorem inv_deleteGroup (s : ProviderState) (name : String) (hInv : Inv s) :
    Inv (deleteGroup s name) := by
  unfold deleteGroup
  have h1 := inv_saveToHistory s "deleteGroup" hInv
  dsimp only
  split
  · exact h1
  · rename_i r heq
    split
    · exact h1
    · rename_i obj hobj
      have h2 : Inv { saveToHistory s "deleteGroup" with
          groups := mapDelete (saveToHistory s "deleteGroup").groups name } :=
        inv_groupsDelete name h1
      split
      · -- parentGroup = none: heap unchanged
        exact ginv_delSubs _ _ _ _ h2
      · rename_i p hpar
        split
        · exact ginv_delSubs _ _ _ _ h2
        · rename_i pr hpr
          split
          · exact ginv_delSubs _ _ _ _ h2
          · rename_i pobj hpobj
            have h3 : Inv { saveToHistory s "deleteGroup" with
                groups := mapDelete (saveToHistory s "deleteGroup").groups name,
                heap := heapSet (saveToHistory s "deleteGroup").heap pr
                  { files := pobj.files,
                    subGroups := subDel pobj.subGroups name,
                    parentGroup := pobj.parentGroup } } := by
              refine inv_heapUpdate _ h2 hpr ?_
              intro e he n hn
              obtain ⟨hval, hrnd, hknd, hden⟩ := h2
              exact hden _ (mem_of_mapGet_eq_some hpr) pobj hpobj e he n hn
            exact ginv_delSubs _ _ _ _ h3

theorem inv_addNewGroup (s : ProviderState) (input : Option String)
    (parent : Option String) (hInv : Inv s) :
    Inv (addNewGroup s input parent) := by
  unfold addNewGroup
  cases input with
  | none => exact hInv
  | some name =>
      dsimp only
      split
      · exact hInv
      · split
        · exact hInv
        · rename_i hne hnh
          have hnotin : name ∉ keysOf s.groups := by
            rw [← mapHas_false_iff]
            simpa using hnh
          dsimp only [alloc]
          rw [mapSet_of_not_mem _ (by
            rw [show ({ s with heap := s.heap ++
                [{ files := [], subGroups := [], parentGroup := parent }] } :
                ProviderState).groups = s.groups from rfl]
            exact hnotin)]
          have h2 : Inv { s with
              heap := s.heap ++
                [{ files := [], subGroups := [], parentGroup := parent }],
              groups := s.groups ++ [(name, s.heap.length)] } :=
            inv_allocRegister _ hInv hnotin (by intro e he; cases he)
          cases parent with
          | none => exact h2
          | some p =>
              dsimp only
              split
              · exact h2
              · rename_i pr hpr
                split
                · exact h2
                · rename_i pobj hpobj
                  refine inv_heapUpdate _ h2 hpr ?_
                  intro e he n hn
                  obtain ⟨hval, hrnd, hknd, hden⟩ := h2
                  exact hden _ (mem_of_mapGet_eq_some hpr) pobj hpobj e he n hn

theorem inv_moveToGroupItem (s : ProviderState) (item : FavoriteItem)
    (t : String) (hInv : Inv s) : Inv (moveToGroupItem s item t) := by
  unfold moveToGroupItem
  split
  · -- target is the default group: groupName is cleared
    have h1 : Inv (match item.groupName with
        | none => s
        | some gn => dropFromGroup s gn item.path) := by
      cases item.groupName with
      | none => exact hInv
      | some gn => exact inv_dropFromGroup s gn item.path hInv
    refine inv_putInGroup _ _ _ ?_ h1
    intro n hn
    cases hn
  · have h1 : Inv (match item.groupName with
        | some gn => dropFromGroup s gn item.path
        | none => dropFromGroup s DEFAULT_GROUP item.path) := by
      cases item.groupName with
      | none => exact inv_dropFromGroup s DEFAULT_GROUP item.path hInv
      | some gn => exact inv_dropFromGroup s gn item.path hInv
    refine inv_putInGroup _ _ _ ?_ (inv_ensureGroup _ t h1)
    intro n hn
    exact (Option.some.inj hn).symm

theorem inv_copyToGroupItem (s : ProviderState) (item : FavoriteItem)
    (t : String) (hInv : Inv s) : Inv (copyToGroupItem s item t) := by
  unfold copyToGroupItem
  split
  · refine inv_putInGroup _ _ _ ?_ hInv
    intro n hn
    cases hn
  · refine inv_putInGroup _ _ _ ?_ (inv_ensureGroup _ t hInv)
    intro n hn
    exact (Option.some.inj hn).symm

theorem inv_handleDropSource (s : ProviderState) (t : String) (isCopy : Bool)
    (src : DropSource) (hInv : Inv s) :
    Inv (handleDropSource s t isCopy src) := by
  unfold handleDropSource
  split
  · have h1 : Inv (if isCopy then s
        else match src.groupName with
          | some gn => dropFromGroup s gn src.path
          | none => dropFromGroup s DEFAULT_GROUP src.path) := by
      split
      · exact hInv
      · cases src.groupName with
        | none => exact inv_dropFromGroup s DEFAULT_GROUP src.path hInv
        | some gn => exact inv_dropFromGroup s gn src.path hInv
    refine inv_putInGroup _ _ _ ?_ (inv_ensureGroup _ t h1)
    intro n hn
    exact (Option.some.inj hn).symm
  · exact hInv

theorem inv_handleDrop (s : ProviderState) (t : String) (isCopy : Bool)
    (sources : List DropSource) (hInv : Inv s) :
    Inv (handleDrop s t isCopy sources) := by
  unfold handleDrop
  induction sources generalizing s with
  | nil => exact hInv
  | cons src rest ih =>
      rw [List.foldl_cons]
      exact ih _ (inv_handleDropSource s t isCopy src hInv)

theorem ginv_heapSet_emptyFiles {heap : List GroupObj}
    {groups : List (String × Ref)} (r : Ref) (sub : List String)
    (par : Option String) (h : GInv heap groups) :
    GInv (heapSet heap r { files := [], subGroups := sub, parentGroup := par })
      groups := by
  obtain ⟨hval, hrnd, hknd, hden⟩ := h
  refine ⟨?_, hrnd, hknd, ?_⟩
  · intro q hq
    rw [length_heapSet]
    exact hval q hq
  · intro q hq obj hobj e he n hn
    rw [heapGet_heapSet_cases] at hobj
    by_cases hc : q.2 = r ∧ r < heap.length
    · rw [if_pos hc] at hobj
      obtain rfl := Option.some.inj hobj
      cases he
    · rw [if_neg hc] at hobj
      exact hden q hq obj hobj e he n hn

theorem ginv_foldl_clear {groups0 : List (String × Ref)} :
    ∀ (l : List (String × Ref)) (heap : List GroupObj), GInv heap groups0 →
      GInv (l.foldl
        (fun h p =>
          match heapGet h p.2 with
          | none => h
          | some obj => heapSet h p.2
              { files := [], subGroups := obj.subGroups,
                parentGroup := obj.parentGroup }) heap) groups0 := by
  intro l
  induction l with
  | nil => exact fun heap h => h
  | cons p rest ih =>
      intro heap h
      rw [List.foldl_cons]
      refine ih _ ?_
      split
      · exact h
      · exact ginv_heapSet_emptyFiles _ _ _ h

theorem inv_removeAll (s : ProviderState) (hInv : Inv s) :
    Inv (removeAll s) := by
  unfold removeAll
  have h1 := inv_saveToHistory s "removeAll" hInv
  dsimp only
  split
  · exact h1
  · exact ginv_foldl_clear _ _ h1

theorem inv_setActiveGroup (s : ProviderState) (g : Option String)
    (hInv : Inv s) : Inv (setActiveGroup s g) :=
  inv_of_same s _ rfl rfl hInv

theorem inv_importStep (gn : String) (stat : String → Option FileType)
    (acc : ProviderState × Nat × Nat) (p : String) (hInv : Inv acc.1) :
    Inv (importStep gn stat acc p).1 := by
  unfold importStep
  dsimp only
  split
  · split
    · exact hInv
    · rename_i r heq
      split
      · exact hInv
      · rename_i obj hobj
        unfold setFilesAt
        dsimp only
        refine inv_heapUpdate _ hInv heq ?_
        intro e he n hn
        rcases mem_mapSet he with he2 | hmem
        · rw [he2] at hn
          simp only at hn
          exact (Option.some.inj hn).symm
        · obtain ⟨hval, hrnd, hknd, hden⟩ := hInv
          exact hden _ (mem_of_mapGet_eq_some heq) obj hobj e hmem n hn
  · exact hInv
  · exact hInv

theorem inv_import_fold (gn : String) (stat : String → Option FileType) :
    ∀ (paths : List String) (acc : ProviderState × Nat × Nat),
      Inv acc.1 → Inv ((paths.foldl (importStep gn stat) acc).1) := by
  intro paths
  induction paths with
  | nil => exact fun acc h => h
  | cons p rest ih =>
      intro acc h
      rw [List.foldl_cons]
      exact ih _ (inv_importStep gn stat acc p h)

theorem inv_addFilesFromText (s : ProviderState) (gn text : String)
    (stat : String → Option FileType) (hInv : Inv s) :
    Inv (addFilesFromText s gn text stat).state := by
  unfold addFilesFromText
  dsimp only
  exact inv_import_fold gn stat (parsePaths text) (s, 0, 0) hInv

theorem inv_applyOp (s : ProviderState) (op : Op) (hInv : Inv s) :
    Inv (applyOp s op) := by
  cases op with
  | add p st => exact inv_addFavorite s p st hInv
  | remove item => exact inv_removeFavorite s item hInv
  | addTo p gn => exact inv_addToGroup s p gn hInv
  | rename o i => exact inv_renameGroup s o i hInv
  | deleteG n => exact inv_deleteGroup s n hInv
  | create i par => exact inv_addNewGroup s i par hInv
  | move item t => exact inv_moveToGroupItem s item t hInv
  | copy item t => exact inv_copyToGroupItem s item t hInv
  | drop t c srcs => exact inv_handleDrop s t c srcs hInv
  | clearAll => exact inv_removeAll s hInv
  | setActive g => exact inv_setActiveGroup s g hInv
  | importText gn text stat => exact inv_addFilesFromText s gn text stat hInv

theorem inv_initState : Inv initState := by
  refine ⟨?_, ?_, ?_, ?_⟩
  · intro q hq
    rcases List.mem_singleton.mp hq with rfl
    simp [initState]
  · simp [initState]
  · simp [initState, keysOf]
  · intro q hq obj hobj e he n hn
    rcases List.mem_singleton.mp hq with rfl
    simp only [initState, heapGet, emptyGroup] at hobj
    rw [show ([({ files := [], subGroups := [], parentGroup := none } :
        GroupObj)])[(0 : Nat)]? = some
        { files := [], subGroups := [], parentGroup := none } from rfl] at hobj
    obtain rfl := Option.some.inj hobj
    cases he

theorem inv_reachable (s : ProviderState) (h : Reachable s) : Inv s := by
  obtain ⟨ops, rfl⟩ := h
  rw [applyOps]
  have : ∀ (l : List Op) (st : ProviderState), Inv st →
      Inv (l.foldl applyOp st) := by
    intro l
    induction l with
    | nil => exact fun st h => h
    | cons op rest ih =>
        intro st h
        rw [List.foldl_cons]
        exact ih _ (inv_applyOp st op h)
  exact this ops initState inv_initState

theorem denormWeakOK_of_inv (s : ProviderState) (hInv : Inv s) :
    denormWeakOK s = true := by
  obtain ⟨hval, hrnd, hknd, hden⟩ := hInv
  rw [denormWeakOK, List.all_eq_true]
  intro q hq
  split
  · rfl
  · rename_i obj hobj
    rw [List.all_eq_true]
    intro e he
    split
    · rfl
    · rename_i n hn
      exact decide_eq_true (hden q hq obj hobj e he n hn)

/-- C3: as stated the claim is FALSE (see the counterexample — items
inserted by `addFavorite` carry no `groupName` at all); amended: along
every operation sequence from the fresh store, every item whose
`groupName` IS set lies in the group of exactly that name (checked by
the executable `denormWeakOK`). -/
theorem reachable_weak_denormalization :
    ∀ s : ProviderState, Reachable s → denormWeakOK s = true :=
  fun s h => denormWeakOK_of_inv s (inv_reachable s h)

/-- C3 witness: the weak denormalization check on the store reached by
one `addToGroup` operation. -/
theorem reachable_weak_denormalization_witness :
    denormWeakOK (applyOps [Op.addTo "/a.txt" "g"]) = true :=
  reachable_weak_denormalization (applyOps [Op.addTo "/a.txt" "g"])
    ⟨[Op.addTo "/a.txt" "g"], rfl⟩

/-- C3 counterexample: after `addFavorite` the default group's files
map holds an item whose `groupName` is unset — not equal to the
containing group's name `'default'` as the claim requires. -/
theorem addFavorite_breaks_denormalization :
    mapGet (addFavorite initState "/a.txt" StatResult.file).groups "default"
        = some 0 ∧
      heapGet (addFavorite initState "/a.txt" StatResult.file).heap 0 =
        some { files := [("/a.txt",
                 { path := "/a.txt", name := "a.txt", groupName := none })],
               subGroups := [], parentGroup := none } ∧
      (none : Option String) ≠ some "default" := by decide
theorem mapDelete_eq_filter {α : Type} {m : List (String × α)} {k : String}
    (hnd : (keysOf m).Nodup) :
    mapDelete m k = m.filter (fun q => decide (q.1 ≠ k)) := by
  induction m with
  | nil => rfl
  | cons p rest ih =>
      rw [keysOf, List.map_cons, List.nodup_cons] at hnd
      by_cases hp : p.1 = k
      · rw [mapDelete, if_pos hp, List.filter_cons]
        rw [if_neg (by simp [hp])]
        have : rest.filter (fun q => decide (q.1 ≠ k)) = rest := by
          refine List.filter_eq_self.mpr ?_
          intro q hq
          simp only [decide_eq_true_eq]
          intro he
          refine hnd.1 ?_
          rw [hp, ← he]
          exact List.mem_map.mpr ⟨q, hq, rfl⟩
        rw [this]
      · rw [mapDelete, if_neg hp, List.filter_cons]
        rw [if_pos (by simp [hp])]
        rw [ih hnd.2]

theorem mapGet_filter_of_pred {α : Type} {m : List (String × α)}
    {p : String × α → Bool} {x : String}
    (hx : ∀ v : α, p (x, v) = true) :
    mapGet (m.filter p) x = mapGet m x := by
  induction m with
  | nil => rfl
  | cons q rest ih =>
      by_cases hqx : q.1 = x
      · have hq : p q = true := by
          have : q = (x, q.2) := by
            rw [← hqx]
          rw [this]
          exact hx q.2
        rw [List.filter_cons, if_pos hq, mapGet, if_pos hqx, mapGet,
          if_pos hqx]
      · rw [List.filter_cons]
        by_cases hpq : p q = true
        · rw [if_pos hpq, mapGet, if_neg hqx, mapGet, if_neg hqx]
          exact ih
        · rw [if_neg hpq, mapGet, if_neg hqx]
          exact ih

theorem mem_keysOf_filter {α : Type} (m : List (String × α))
    (p : String × α → Bool) (x : String) :
    x ∈ keysOf (m.filter p) ↔ ∃ v : α, (x, v) ∈ m ∧ p (x, v) = true := by
  constructor
  · intro hx
    rcases List.mem_map.mp hx with ⟨q, hq, hq1⟩
    rcases List.mem_filter.mp hq with ⟨hqm, hqp⟩
    refine ⟨q.2, ?_, ?_⟩
    · rw [← hq1]
      exact hqm
    · rw [← hq1]
      exact hqp
  · intro ⟨v, hvm, hvp⟩
    refine List.mem_map.mpr ⟨(x, v), List.mem_filter.mpr ⟨hvm, hvp⟩, rfl⟩

theorem mem_keysOf_removeNames (names : List String)
    (m : List (String × Ref)) (x : String) :
    x ∈ keysOf (removeNames names m) ↔ x ∈ keysOf m ∧ x ∉ names := by
  rw [removeNames]
  rw [mem_keysOf_filter]
  constructor
  · intro ⟨v, hvm, hvp⟩
    constructor
    · exact List.mem_map.mpr ⟨(x, v), hvm, rfl⟩
    · simp only [Bool.not_eq_true'] at hvp
      intro hmem
      rw [show names.contains x = true from List.elem_iff.mpr hmem] at hvp
      exact Bool.noConfusion hvp
  · intro ⟨hxm, hxn⟩
    rcases List.mem_map.mp hxm with ⟨q, hq, hq1⟩
    refine ⟨q.2, ?_, ?_⟩
    · rw [show (x, q.2) = q from by rw [← hq1]]
      exact hq
    · have : ¬ names.contains (x, q.2).1 = true := by
        intro hc
        exact hxn (List.elem_iff.mp hc)
      simp only [Bool.not_eq_true] at this
      rw [this]
      rfl

theorem matches_mono_groups {heap : List GroupObj} :
    ∀ (f : GForest) (groups groups' : List (String × Ref)),
      (∀ x ∈ GForest.names f, mapGet groups' x = mapGet groups x) →
      MatchesForest heap groups f → MatchesForest heap groups' f := by
  intro f
  induction f with
  | nil => exact fun _ _ _ _ => trivial
  | node n c sib ihc ihsib =>
      intro groups groups' hagree hm
      obtain ⟨⟨r, obj, hr, hobj, hsubs, hmc⟩, hmsib⟩ := hm
      refine ⟨⟨r, obj, ?_, hobj, hsubs, ?_⟩, ?_⟩
      · rw [hagree n (by rw [GForest.names]; exact List.mem_cons_self _ _)]
        exact hr
      · refine ihc groups groups' ?_ hmc
        intro x hx
        refine hagree x ?_
        rw [GForest.names]
        exact List.mem_cons_of_mem _ (List.mem_append_left _ hx)
      · refine ihsib groups groups' ?_ hmsib
        intro x hx
        refine hagree x ?_
        rw [GForest.names]
        exact List.mem_cons_of_mem _ (List.mem_append_right _ hx)

theorem matches_mono_heap {groups : List (String × Ref)} :
    ∀ (f : GForest) (heap heap' : List GroupObj),
      (∀ x ∈ GForest.names f, ∀ rx, mapGet groups x = some rx →
        heapGet heap' rx = heapGet heap rx) →
      MatchesForest heap groups f → MatchesForest heap' groups f := by
  intro f
  induction f with
  | nil => exact fun _ _ _ _ => trivial
  | node n c sib ihc ihsib =>
      intro heap heap' hagree hm
      obtain ⟨⟨r, obj, hr, hobj, hsubs, hmc⟩, hmsib⟩ := hm
      refine ⟨⟨r, obj, hr, ?_, hsubs, ?_⟩, ?_⟩
      · rw [hagree n (by rw [GForest.names]; exact List.mem_cons_self _ _) r hr]
        exact hobj
      · refine ihc heap heap' ?_ hmc
        intro x hx
        refine hagree x ?_
        rw [GForest.names]
        exact List.mem_cons_of_mem _ (List.mem_append_left _ hx)
      · refine ihsib heap heap' ?_ hmsib
        intro x hx
        refine hagree x ?_
        rw [GForest.names]
        exact List.mem_cons_of_mem _ (List.mem_append_right _ hx)

theorem matches_names_mem {heap : List GroupObj} :
    ∀ (f : GForest) (groups : List (String × Ref)),
      MatchesForest heap groups f →
      ∀ x ∈ GForest.names f, x ∈ keysOf groups := by
  intro f
  induction f with
  | nil =>
      intro groups _ x hx
      cases hx
  | node n c sib ihc ihsib =>
      intro groups hm x hx
      obtain ⟨⟨r, obj, hr, hobj, hsubs, hmc⟩, hmsib⟩ := hm
      rw [GForest.names] at hx
      rcases List.mem_cons.mp hx with rfl | hx2
      · exact List.mem_map.mpr ⟨(x, r), mem_of_mapGet_eq_some hr, rfl⟩
      · rcases List.mem_append.mp hx2 with hxc | hxs
        · exact ihc groups hmc x hxc
        · exact ihsib groups hmsib x hxs

theorem depth_le_names_length : ∀ f : GForest,
    GForest.depth f ≤ (GForest.names f).length := by
  intro f
  induction f with
  | nil =>
      rw [GForest.depth, GForest.names]
      exact Nat.le_refl 0
  | node n c sib ihc ihsib =>
      rw [GForest.depth, GForest.names, List.length_cons, List.length_append]
      omega

theorem nodup_subset_length {l1 l2 : List String} (h1 : l1.Nodup)
    (hsub : ∀ x ∈ l1, x ∈ l2) : l1.length ≤ l2.length := by
  have hc1 : l1.toFinset.card = l1.length := List.toFinset_card_of_nodup h1
  have hc2 : l1.toFinset ⊆ l2.toFinset := by
    intro x hx
    rw [List.mem_toFinset] at hx
    rw [List.mem_toFinset]
    exact hsub x hx
  have hc3 : l2.toFinset.card ≤ l2.length := l2.toFinset_card_le
  have := Finset.card_le_card hc2
  omega

theorem contains_eq_decide_mem (l : List String) (a : String) :
    l.contains a = decide (a ∈ l) := by
  by_cases h : a ∈ l
  · simp [h]
  · simp [h]

theorem nodup_keys_filter {α : Type} {m : List (String × α)}
    (p : String × α → Bool) (h : (keysOf m).Nodup) :
    (keysOf (m.filter p)).Nodup :=
  List.Nodup.sublist (List.Sublist.map _ (List.filter_sublist m)) h

theorem delSubs_forest (heap : List GroupObj) :
    ∀ (f : GForest) (fuel : Nat) (groups : List (String × Ref)),
      MatchesForest heap groups f →
      (GForest.names f).Nodup →
      (keysOf groups).Nodup →
      GForest.depth f ≤ fuel →
      delSubs heap fuel groups (GForest.roots f) =
        removeNames (GForest.names f) groups := by
  intro f
  induction f with
  | nil =>
      intro fuel groups _ _ _ _
      rw [GForest.roots, delSubs.eq_def, GForest.names, removeNames]
      exact (List.filter_eq_self.mpr (fun q _ => rfl)).symm
  | node n c sib ihc ihsib =>
      intro fuel groups hm hnd hknd hdep
      obtain ⟨⟨r, obj, hr, hobj, hsubs, hmc⟩, hmsib⟩ := hm
      rw [GForest.names, List.nodup_cons] at hnd
      obtain ⟨hn_notin, hnd2⟩ := hnd
      rw [List.nodup_append] at hnd2
      obtain ⟨hndc, hnds, hdisj⟩ := hnd2
      have hn_nc : n ∉ GForest.names c := fun hx =>
        hn_notin (List.mem_append_left _ hx)
      have hn_ns : n ∉ GForest.names sib := fun hx =>
        hn_notin (List.mem_append_right _ hx)
      rw [GForest.depth] at hdep
      have hdc : GForest.depth c + 1 ≤ fuel := le_trans (Nat.le_max_left _ _) hdep
      have hds : GForest.depth sib ≤ fuel := le_trans (Nat.le_max_right _ _) hdep
      cases fuel with
      | zero => omega
      | succ fuel' =>
          rw [GForest.roots, delSubs.eq_def]
          simp only [hr, hobj, hsubs, Option.map_some', Option.getD_some]
          rw [ihc fuel' groups hmc hndc hknd (by omega)]
          have hkeys1 : (keysOf (removeNames (GForest.names c) groups)).Nodup :=
            nodup_keys_filter _ hknd
          rw [mapDelete_eq_filter hkeys1]
          have hmid_eq : ∀ x ∈ GForest.names sib,
              mapGet ((removeNames (GForest.names c) groups).filter
                (fun q => decide (q.1 ≠ n))) x = mapGet groups x := by
            intro x hx
            have hxn : x ≠ n := fun he => hn_ns (he ▸ hx)
            have hxc : x ∉ GForest.names c := fun hc2 =>
              (List.disjoint_left.mp hdisj) hc2 hx
            rw [mapGet_filter_of_pred (fun v => by simp [hxn])]
            rw [removeNames]
            rw [mapGet_filter_of_pred (fun v => by
              rw [show ((x, v) : String × Ref).1 = x from rfl,
                contains_eq_decide_mem]
              simp [hxc])]
          have hmsib' : MatchesForest heap
              ((removeNames (GForest.names c) groups).filter
                (fun q => decide (q.1 ≠ n))) sib :=
            matches_mono_groups sib groups _ hmid_eq hmsib
          rw [ihsib (fuel' + 1) _ hmsib' hnds
            (nodup_keys_filter _ hkeys1) (by omega)]
          rw [removeNames, removeNames, removeNames]
          rw [List.filter_filter, List.filter_filter]
          refine List.filter_congr ?_
          intro q _
          by_cases h1 : q.1 = n <;> by_cases h2 : q.1 ∈ GForest.names c <;>
            by_cases h3 : q.1 ∈ GForest.names sib <;>
            simp [contains_eq_decide_mem, h1, h2, h3, GForest.names]

theorem mem_keysOf_mapDelete {α : Type} {m : List (String × α)}
    (hnd : (keysOf m).Nodup) (k x : String) :
    x ∈ keysOf (mapDelete m k) ↔ x ∈ keysOf m ∧ x ≠ k := by
  rw [mapDelete_eq_filter hnd, mem_keysOf_filter]
  constructor
  · intro ⟨v, hvm, hvp⟩
    constructor
    · exact List.mem_map.mpr ⟨(x, v), hvm, rfl⟩
    · simpa using hvp
  · intro ⟨hxm, hxk⟩
    rcases List.mem_map.mp hxm with ⟨q, hq, hq1⟩
    refine ⟨q.2, ?_, ?_⟩
    · rw [show (x, q.2) = q from by rw [← hq1]]
      exact hq
    · simpa using hxk

theorem deleteGroup_eq_noParent (s : ProviderState) (name : String) (r : Ref)
    (obj : GroupObj) (hr : mapGet s.groups name = some r)
    (hobj : heapGet s.heap r = some obj) (hpar : obj.parentGroup = none) :
    deleteGroup s name = { saveToHistory s "deleteGroup" with
      groups := delSubs s.heap (mapDelete s.groups name).length
        (mapDelete s.groups name) obj.subGroups,
      heap := s.heap } := by
  unfold deleteGroup
  dsimp only
  have hr1 : mapGet (saveToHistory s "deleteGroup").groups name = some r := hr
  rw [hr1]
  dsimp only
  have hobj1 : heapGet (saveToHistory s "deleteGroup").heap r = some obj := hobj
  rw [hobj1]
  dsimp only
  rw [hpar]
  rfl

theorem deleteGroup_eq_missingParent (s : ProviderState) (name : String)
    (r : Ref) (obj : GroupObj) (p : String)
    (hr : mapGet s.groups name = some r)
    (hobj : heapGet s.heap r = some obj) (hpar : obj.parentGroup = some p)
    (hmiss : mapGet (mapDelete s.groups name) p = none) :
    deleteGroup s name = { saveToHistory s "deleteGroup" with
      groups := delSubs s.heap (mapDelete s.groups name).length
        (mapDelete s.groups name) obj.subGroups,
      heap := s.heap } := by
  unfold deleteGroup
  dsimp only
  have hr1 : mapGet (saveToHistory s "deleteGroup").groups name = some r := hr
  rw [hr1]
  dsimp only
  have hobj1 : heapGet (saveToHistory s "deleteGroup").heap r = some obj := hobj
  rw [hobj1]
  dsimp only
  rw [hpar]
  dsimp only
  have hmiss1 : mapGet (mapDelete (saveToHistory s "deleteGroup").groups name) p
      = none := hmiss
  rw [hmiss1]
  rfl

theorem deleteGroup_eq_parent (s : ProviderState) (name : String) (r : Ref)
    (obj : GroupObj) (p : String) (pr : Ref) (pobj : GroupObj)
    (hr : mapGet s.groups name = some r)
    (hobj : heapGet s.heap r = some obj) (hpar : obj.parentGroup = some p)
    (hp : mapGet (mapDelete s.groups name) p = some pr)
    (hpobj : heapGet s.heap pr = some pobj) :
    deleteGroup s name = { saveToHistory s "deleteGroup" with
      groups := delSubs
        (heapSet s.heap pr
          { files := pobj.files, subGroups := subDel pobj.subGroups name,
            parentGroup := pobj.parentGroup })
        (mapDelete s.groups name).length
        (mapDelete s.groups name) obj.subGroups,
      heap := heapSet s.heap pr
        { files := pobj.files, subGroups := subDel pobj.subGroups name,
          parentGroup := pobj.parentGroup } } := by
  unfold deleteGroup
  dsimp only
  have hr1 : mapGet (saveToHistory s "deleteGroup").groups name = some r := hr
  rw [hr1]
  dsimp only
  have hobj1 : heapGet (saveToHistory s "deleteGroup").heap r = some obj := hobj
  rw [hobj1]
  dsimp only
  rw [hpar]
  dsimp only
  have hp1 : mapGet (mapDelete (saveToHistory s "deleteGroup").groups name) p
      = some pr := hp
  rw [hp1]
  dsimp only
  have hpobj1 : heapGet (saveToHistory s "deleteGroup").heap pr = some pobj :=
    hpobj
  rw [hpobj1]
  rfl

/-- C4: cascade delete. Amended: when the store's `subGroups` lists
accurately describe the descendant tree (`MatchesForest`), and the
store is closed under parenthood on that tree (every group whose
`parentGroup` lies in the tree is itself in the tree; the deleted
root's own parent lies outside), `deleteGroup name` removes exactly
the root and its N descendants with all their files, removes `name`
from the parent's `subGroups`, and afterwards no remaining group's
`parentGroup` references a deleted name.  The spec's unconditional
claim is false: the recursion trusts the in-memory `subGroups` maps,
and `loadFavorites` rebuilds every group with an EMPTY `subGroups`
map (and `renameGroup` leaves stale entries), so on a loaded store a
parent delete orphans its children, whose `parentGroup` then dangles
(see the counterexample). -/
theorem deleteGroup_cascade (s : ProviderState) (name : String) (r : Ref)
    (obj : GroupObj) (f : GForest)
    (hInv : Inv s)
    (hr : mapGet s.groups name = some r)
    (hobj : heapGet s.heap r = some obj)
    (hsubs : obj.subGroups = GForest.roots f)
    (hmatch : MatchesForest s.heap s.groups f)
    (hnodup : (name :: GForest.names f).Nodup)
    (hpnot : ∀ pn, obj.parentGroup = some pn → pn ∉ name :: GForest.names f)
    (hclosed : ∀ q ∈ s.groups, ∀ objq, heapGet s.heap q.2 = some objq →
      ∀ pg, objq.parentGroup = some pg → pg ∈ name :: GForest.names f →
      q.1 ∈ name :: GForest.names f) :
    ((deleteGroup s name).groups =
        removeNames (GForest.names f) (mapDelete s.groups name)) ∧
    (∀ x, x ∈ keysOf (deleteGroup s name).groups ↔
        (x ∈ keysOf s.groups ∧ x ∉ name :: GForest.names f)) ∧
    (∀ p pr pobj, obj.parentGroup = some p →
        mapGet (mapDelete s.groups name) p = some pr →
        heapGet s.heap pr = some pobj →
        heapGet (deleteGroup s name).heap pr =
          some { files := pobj.files, subGroups := subDel pobj.subGroups name,
                 parentGroup := pobj.parentGroup }) ∧
    (∀ q ∈ (deleteGroup s name).groups, ∀ objq,
        heapGet (deleteGroup s name).heap q.2 = some objq →
        ∀ pg, objq.parentGroup = some pg →
        pg ∉ name :: GForest.names f) := by
  obtain ⟨hval, hrnd, hknd, hden⟩ := hInv
  have hname_notin : name ∉ GForest.names f := (List.nodup_cons.mp hnodup).1
  have hfn_nodup : (GForest.names f).Nodup := (List.nodup_cons.mp hnodup).2
  have hknd1 : (keysOf (mapDelete s.groups name)).Nodup :=
    List.Nodup.sublist (keysOf_mapDelete_sublist s.groups name) hknd
  have hmatch1 : MatchesForest s.heap (mapDelete s.groups name) f := by
    refine matches_mono_groups f s.groups (mapDelete s.groups name) ?_ hmatch
    intro x hx
    exact mapGet_mapDelete_ne s.groups (fun he => hname_notin (he ▸ hx))
  have hsubset : ∀ x ∈ GForest.names f, x ∈ keysOf (mapDelete s.groups name) :=
    matches_names_mem f _ hmatch1
  have hfuel : GForest.depth f ≤ (mapDelete s.groups name).length := by
    have h1 := depth_le_names_length f
    have h2 := nodup_subset_length hfn_nodup hsubset
    have h3 : (keysOf (mapDelete s.groups name)).length
        = (mapDelete s.groups name).length := List.length_map _ _
    omega
  cases hpar : obj.parentGroup with
  | none =>
      have hDG := deleteGroup_eq_noParent s name r obj hr hobj hpar
      have hgroups : (deleteGroup s name).groups =
          delSubs s.heap (mapDelete s.groups name).length
            (mapDelete s.groups name) obj.subGroups := by rw [hDG]
      have hheap : (deleteGroup s name).heap = s.heap := by rw [hDG]
      have ha : (deleteGroup s name).groups =
          removeNames (GForest.names f) (mapDelete s.groups name) := by
        rw [hgroups, hsubs]
        exact delSubs_forest s.heap f _ _ hmatch1 hfn_nodup hknd1 hfuel
      have hb : ∀ x, x ∈ keysOf (deleteGroup s name).groups ↔
          (x ∈ keysOf s.groups ∧ x ∉ name :: GForest.names f) := by
        intro x
        rw [ha, mem_keysOf_removeNames, mem_keysOf_mapDelete hknd name x]
        constructor
        · intro ⟨⟨hxm, hxn⟩, hxf⟩
          refine ⟨hxm, ?_⟩
          intro hc
          rcases List.mem_cons.mp hc with he | hm2
          · exact hxn he
          · exact hxf hm2
        · intro ⟨hxm, hxnot⟩
          exact ⟨⟨hxm, fun he => hxnot (he ▸ List.mem_cons_self _ _)⟩,
            fun hm2 => hxnot (List.mem_cons_of_mem _ hm2)⟩
      refine ⟨ha, hb, ?_, ?_⟩
      · intro p prx pobjx hpn _ _
        exact Option.noConfusion hpn
      · intro q hq objq hobjq pg hpg hpgmem
        have hq2 : q ∈ removeNames (GForest.names f) (mapDelete s.groups name) :=
          ha ▸ hq
        rw [removeNames] at hq2
        have hqs : q ∈ s.groups :=
          mem_of_mem_mapDelete (List.mem_of_mem_filter hq2)
        rw [hheap] at hobjq
        have hq1mem := hclosed q hqs objq hobjq pg hpg hpgmem
        have hq1r : q.1 ∈ keysOf (deleteGroup s name).groups :=
          List.mem_map.mpr ⟨q, hq, rfl⟩
        exact ((hb q.1).mp hq1r).2 hq1mem
  | some p =>
      have hp_notin : p ∉ name :: GForest.names f := hpnot p hpar
      cases hpcase : mapGet (mapDelete s.groups name) p with
      | none =>
          have hDG := deleteGroup_eq_missingParent s name r obj p hr hobj hpar
            hpcase
          have hgroups : (deleteGroup s name).groups =
              delSubs s.heap (mapDelete s.groups name).length
                (mapDelete s.groups name) obj.subGroups := by rw [hDG]
          have hheap : (deleteGroup s name).heap = s.heap := by rw [hDG]
          have ha : (deleteGroup s name).groups =
              removeNames (GForest.names f) (mapDelete s.groups name) := by
            rw [hgroups, hsubs]
            exact delSubs_forest s.heap f _ _ hmatch1 hfn_nodup hknd1 hfuel
          have hb : ∀ x, x ∈ keysOf (deleteGroup s name).groups ↔
              (x ∈ keysOf s.groups ∧ x ∉ name :: GForest.names f) := by
            intro x
            rw [ha, mem_keysOf_removeNames, mem_keysOf_mapDelete hknd name x]
            constructor
            · intro ⟨⟨hxm, hxn⟩, hxf⟩
              refine ⟨hxm, ?_⟩
              intro hc
              rcases List.mem_cons.mp hc with he | hm2
              · exact hxn he
              · exact hxf hm2
            · intro ⟨hxm, hxnot⟩
              exact ⟨⟨hxm, fun he => hxnot (he ▸ List.mem_cons_self _ _)⟩,
                fun hm2 => hxnot (List.mem_cons_of_mem _ hm2)⟩
          refine ⟨ha, hb, ?_, ?_⟩
          · intro p2 prx pobjx hpn hp2 _
            injection hpn with he
            rw [← he, hpcase] at hp2
            exact Option.noConfusion hp2
          · intro q hq objq hobjq pg hpg hpgmem
            have hq2 : q ∈ removeNames (GForest.names f)
                (mapDelete s.groups name) := ha ▸ hq
            rw [removeNames] at hq2
            have hqs : q ∈ s.groups :=
              mem_of_mem_mapDelete (List.mem_of_mem_filter hq2)
            rw [hheap] at hobjq
            have hq1mem := hclosed q hqs objq hobjq pg hpg hpgmem
            have hq1r : q.1 ∈ keysOf (deleteGroup s name).groups :=
              List.mem_map.mpr ⟨q, hq, rfl⟩
            exact ((hb q.1).mp hq1r).2 hq1mem
      | some pr2 =>
          have hpr2_mem : (p, pr2) ∈ s.groups :=
            mem_of_mem_mapDelete (mem_of_mapGet_eq_some hpcase)
          have hpr2_lt : pr2 < s.heap.length := hval _ hpr2_mem
          cases hpobjcase : heapGet s.heap pr2 with
          | none =>
              exfalso
              have := (heapGet_isSome_iff s.heap pr2).mpr hpr2_lt
              rw [hpobjcase] at this
              exact Bool.noConfusion this
          | some pobj =>
              have hDG := deleteGroup_eq_parent s name r obj p pr2 pobj hr hobj
                hpar hpcase hpobjcase
              have hgroups : (deleteGroup s name).groups =
                  delSubs
                    (heapSet s.heap pr2
                      { files := pobj.files,
                        subGroups := subDel pobj.subGroups name,
                        parentGroup := pobj.parentGroup })
                    (mapDelete s.groups name).length
                    (mapDelete s.groups name) obj.subGroups := by rw [hDG]
              have hheap : (deleteGroup s name).heap =
                  heapSet s.heap pr2
                    { files := pobj.files,
                      subGroups := subDel pobj.subGroups name,
                      parentGroup := pobj.parentGroup } := by rw [hDG]
              have hmatchH : MatchesForest
                  (heapSet s.heap pr2
                    { files := pobj.files,
                      subGroups := subDel pobj.subGroups name,
                      parentGroup := pobj.parentGroup })
                  (mapDelete s.groups name) f := by
                refine matches_mono_heap f s.heap _ ?_ hmatch1
                intro x hx rx hrx
                have hxmem : (x, rx) ∈ s.groups :=
                  mem_of_mem_mapDelete (mem_of_mapGet_eq_some hrx)
                have hne : rx ≠ pr2 := by
                  intro he
                  subst he
                  exact hp_notin (List.mem_cons_of_mem _
                    ((ref_unique hrnd hxmem hpr2_mem) ▸ hx))
                rw [heapGet_heapSet_cases]
                rw [if_neg (fun hc => hne hc.1)]
              have ha : (deleteGroup s name).groups =
                  removeNames (GForest.names f) (mapDelete s.groups name) := by
                rw [hgroups, hsubs]
                exact delSubs_forest _ f _ _ hmatchH hfn_nodup hknd1 hfuel
              have hb : ∀ x, x ∈ keysOf (deleteGroup s name).groups ↔
                  (x ∈ keysOf s.groups ∧ x ∉ name :: GForest.names f) := by
                intro x
                rw [ha, mem_keysOf_removeNames, mem_keysOf_mapDelete hknd name x]
                constructor
                · intro ⟨⟨hxm, hxn⟩, hxf⟩
                  refine ⟨hxm, ?_⟩
                  intro hc
                  rcases List.mem_cons.mp hc with he | hm2
                  · exact hxn he
                  · exact hxf hm2
                · intro ⟨hxm, hxnot⟩
                  exact ⟨⟨hxm, fun he => hxnot (he ▸ List.mem_cons_self _ _)⟩,
                    fun hm2 => hxnot (List.mem_cons_of_mem _ hm2)⟩
              refine ⟨ha, hb, ?_, ?_⟩
              · intro p2 prx pobjx hpn hp2 hpo2
                injection hpn with he
                rw [← he] at hp2
                rw [hpcase] at hp2
                injection hp2 with he2
                rw [← he2] at hpo2
                rw [hpobjcase] at hpo2
                injection hpo2 with he3
                rw [hheap, ← he2, ← he3]
                exact heapGet_heapSet_self s.heap pr2 _ hpr2_lt
              · intro q hq objq hobjq pg hpg hpgmem
                have hq2 : q ∈ removeNames (GForest.names f)
                    (mapDelete s.groups name) := ha ▸ hq
                rw [removeNames] at hq2
                have hqs : q ∈ s.groups :=
                  mem_of_mem_mapDelete (List.mem_of_mem_filter hq2)
                have hq1r : q.1 ∈ keysOf (deleteGroup s name).groups :=
                  List.mem_map.mpr ⟨q, hq, rfl⟩
                have hq1notin : q.1 ∉ name :: GForest.names f :=
                  ((hb q.1).mp hq1r).2
                rw [hheap, heapGet_heapSet_cases] at hobjq
                by_cases hcc : q.2 = pr2 ∧ pr2 < s.heap.length
                · rw [if_pos hcc] at hobjq
                  injection hobjq with he
                  have hpg2 : pobj.parentGroup = some pg := by
                    rw [← hpg, ← he]
                  have hqheap : heapGet s.heap q.2 = some pobj := by
                    rw [hcc.1]
                    exact hpobjcase
                  exact hq1notin (hclosed q hqs pobj hqheap pg hpg2 hpgmem)
                · rw [if_neg hcc] at hobjq
                  exact hq1notin (hclosed q hqs objq hobjq pg hpg hpgmem)

theorem deleteGroup_cascade_witness :
    (deleteGroup (applyOps [Op.create (some "A") none,
        Op.create (some "B") (some "A")]) "A").groups =
      removeNames (GForest.names (GForest.node "B" GForest.nil GForest.nil))
        (mapDelete (applyOps [Op.create (some "A") none,
          Op.create (some "B") (some "A")]).groups "A") := by
  refine (deleteGroup_cascade
    (applyOps [Op.create (some "A") none, Op.create (some "B") (some "A")])
    "A" 1 { files := [], subGroups := ["B"], parentGroup := none }
    (GForest.node "B" GForest.nil GForest.nil)
    (inv_reachable _
      ⟨[Op.create (some "A") none, Op.create (some "B") (some "A")], rfl⟩)
    (by decide) (by decide) rfl
    ⟨⟨2, { files := [], subGroups := [], parentGroup := some "A" },
      by decide, by decide, rfl, trivial⟩, trivial⟩
    (by decide) ?_ ?_).1
  · intro pn h
    exact Option.noConfusion h
  · intro q hq objq hobjq pg hpg hpgmem
    have hg : (applyOps [Op.create (some "A") none,
        Op.create (some "B") (some "A")]).groups
        = [("default", 0), ("A", 1), ("B", 2)] := by decide
    rw [hg] at hq
    simp only [List.mem_cons, List.not_mem_nil, or_false] at hq
    rcases hq with rfl | rfl | rfl
    · rw [show heapGet (applyOps [Op.create (some "A") none,
          Op.create (some "B") (some "A")]).heap ("default", 0).2
          = some { files := [], subGroups := [], parentGroup := none }
          from by decide] at hobjq
      injection hobjq with he
      rw [← he] at hpg
      exact Option.noConfusion hpg
    · rw [show heapGet (applyOps [Op.create (some "A") none,
          Op.create (some "B") (some "A")]).heap ("A", 1).2
          = some { files := [], subGroups := ["B"], parentGroup := none }
          from by decide] at hobjq
      injection hobjq with he
      rw [← he] at hpg
      exact Option.noConfusion hpg
    · rw [show heapGet (applyOps [Op.create (some "A") none,
          Op.create (some "B") (some "A")]).heap ("B", 2).2
          = some { files := [], subGroups := [], parentGroup := some "A" }
          from by decide] at hobjq
      injection hobjq with he
      rw [← he] at hpg
      decide

theorem deleteGroup_loaded_state_orphans_subgroup :
    mapHas (deleteGroup (loadFavorites initState
        [("A", { files := [], parentGroup := none }),
         ("B", { files := [], parentGroup := some "A" })] none) "A").groups
      "B" = true ∧
    mapHas (deleteGroup (loadFavorites initState
        [("A", { files := [], parentGroup := none }),
         ("B", { files := [], parentGroup := some "A" })] none) "A").groups
      "A" = false ∧
    heapGet (deleteGroup (loadFavorites initState
        [("A", { files := [], parentGroup := none }),
         ("B", { files := [], parentGroup := some "A" })] none) "A").heap 2
      = some { files := [], subGroups := [], parentGroup := some "A" } := by
  refine ⟨?_, ?_, ?_⟩
  · simp [deleteGroup, delSubs, saveToHistory, historyPush, mapGet, mapDelete,
      mapHas, heapGet, heapSet, initState, DEFAULT_GROUP, maxHistorySize,
      loadFavorites, ensureGroup, alloc, mapSet, emptyGroup, basename,
      subDel]
  · simp [deleteGroup, delSubs, saveToHistory, historyPush, mapGet, mapDelete,
      mapHas, heapGet, heapSet, initState, DEFAULT_GROUP, maxHistorySize,
      loadFavorites, ensureGroup, alloc, mapSet, emptyGroup, basename,
      subDel]
  · simp [deleteGroup, delSubs, saveToHistory, historyPush, mapGet, mapDelete,
      mapHas, heapGet, heapSet, initState, DEFAULT_GROUP, maxHistorySize,
      loadFavorites, ensureGroup, alloc, mapSet, emptyGroup, basename,
      subDel]

end Favor
